/-
Verification of the basename-sorting organizer (src/inspiration/basename_sorter.py)
against its natural-language specification.

The script `create_and_move_files(directory='.')` performs three steps on one
directory:
  Step 1 (spec: scan): list the directory, skip entries whose name starts with
    a dot, record subdirectory names in a set, and group the remaining file
    names by their stem, `os.path.splitext(item)[0]`.
  Step 2 (spec: ensureFolders): for every group key, if `directory/key` does
    not exist, create it with `os.makedirs`.
  Step 3 (spec: relocate): for every group, move each of its files with
    `shutil.move(directory/file, directory/key/file)`.

Shallow embedding: a filesystem subtree is a finite association list from
names to entries (a regular file, or a directory holding a further such
list).  The association list order plays the role of the `os.listdir`
enumeration order and of the insertion order of Python dicts.  Faults that
the Python code would surface as exceptions (`OSError` out of `os.rename`,
`shutil.Error`) are modelled by `Option`: a failing filesystem call aborts
the run at that point, exactly as an uncaught exception does.
-/
import Mathlib

set_option maxHeartbeats 1000000

/-- A filesystem entry: a regular file, or a directory whose children are an
association list from names to entries (in enumeration order). -/
inductive Entry : Type where
  | file : Entry
  | dir (children : List (String × Entry)) : Entry

/-- Whether an entry is a directory (the model of `os.path.isdir` once the
entry at the path is known to exist). -/
def Entry.isDir : Entry → Bool
  | .file => false
  | .dir _ => true

/-- First-match lookup in an association list: the model of resolving one
path segment against a directory listing. -/
def lookupE {α : Type} : List (String × α) → String → Option α
  | [], _ => none
  | (n, e) :: rest, k => if n = k then some e else lookupE rest k

/-- Remove the first binding of a name: the effect of `os.rename` on the
source directory's listing. -/
def eraseE {α : Type} : List (String × α) → String → List (String × α)
  | [], _ => []
  | (n, e) :: rest, k => if n = k then rest else (n, e) :: eraseE rest k

/-- Replace the first binding of a name (which must be present) by a new
value, keeping its position. -/
def setE {α : Type} : List (String × α) → String → α → List (String × α)
  | [], _, _ => []
  | (n, e) :: rest, k, v => if n = k then (k, v) :: rest else (n, e) :: setE rest k v

/-- The names bound in an association list (the `os.listdir` view). -/
def namesOf {α : Type} (l : List (String × α)) : List String := l.map Prod.fst

/-- Resolve a relative path (list of segments) against a directory listing. -/
def entryAt : List (String × Entry) → List String → Option Entry
  | _, [] => none
  | fs, [n] => lookupE fs n
  | fs, n :: p =>
    match lookupE fs n with
    | some (Entry.dir ch) => entryAt ch p
    | _ => none

/-- Model of Python `item.startswith('.')` (hidden-entry test); the empty
string does not start with a dot. -/
def startsWithDot (s : String) : Bool :=
  match s.data with
  | [] => false
  | c :: _ => c = '.'

/-- Index of the last occurrence of a character in a list, if any
(the model of Python `str.rfind` restricted to a found/not-found answer). -/
def lastIdxOf (c : Char) : List Char → Option Nat
  | [] => none
  | x :: xs =>
    match lastIdxOf c xs with
    | some i => some (i + 1)
    | none => if x = c then some 0 else none

/-- The root part of CPython `genericpath._splitext` on a bare filename
(no path separators, as returned by `os.listdir`): split at the last dot,
except that a name whose characters before that dot are all dots (leading
dots, e.g. `.bashrc`) is returned whole. -/
def stemChars (cs : List Char) : List Char :=
  match lastIdxOf '.' cs with
  | none => cs
  | some i => if (cs.take i).any (fun c => c ≠ '.') then cs.take i else cs

/-- `os.path.splitext(item)[0]`: the stem under which a file is grouped. -/
def stem (s : String) : String := ⟨stemChars s.data⟩

/-- `file_map[base_name].append(item)` on a `defaultdict(list)`: append to
the existing group, or add a new key at the end (Python dicts preserve
insertion order). -/
def fmapAdd : List (String × List String) → String → String → List (String × List String)
  | [], k, v => [(k, [v])]
  | (k', vs) :: rest, k, v =>
    if k' = k then (k', vs ++ [v]) :: rest else (k', vs) :: fmapAdd rest k v

/-- Result of the scan pass: the file groups (`file_map`, insertion-ordered)
and the subdirectory names (`folders`; a Python set, modelled as the list of
names in encounter order — only membership is ever relevant). -/
structure ScanResult : Type where
  fm : List (String × List String)
  folders : List String
deriving Repr

/-- One iteration of the step-1 loop of `create_and_move_files`. -/
def scanStep (acc : ScanResult) (it : String × Entry) : ScanResult :=
  if startsWithDot it.1 then acc
  else
    match it.2 with
    | Entry.dir _ => { acc with folders := acc.folders ++ [it.1] }
    | Entry.file => { acc with fm := fmapAdd acc.fm (stem it.1) it.1 }

/-- Step 1 of `create_and_move_files`: scan the directory listing. -/
def scan (d : List (String × Entry)) : ScanResult :=
  d.foldl scanStep { fm := [], folders := [] }

/-- One iteration of the step-2 loop: if `os.path.exists(directory/b)` is
false, `os.makedirs(directory/b, exist_ok=True)` appends an empty folder and
the created name is logged; otherwise nothing happens. -/
def ensureStep (acc : List (String × Entry) × List String) (b : String) :
    List (String × Entry) × List String :=
  match lookupE acc.1 b with
  | some _ => acc
  | none => (acc.1 ++ [(b, Entry.dir [])], acc.2 ++ [b])

/-- Step 2 of `create_and_move_files`: for each group key in order, if
`os.path.exists(directory/key)` is false, `os.makedirs` the folder.  Returns
the updated listing and the names actually created (the printed log). -/
def ensureFolders (d : List (String × Entry)) (keys : List String) :
    List (String × Entry) × List String :=
  keys.foldl ensureStep (d, [])

/-- Model of `shutil.move(directory/f, directory/base/f)` for a source one
level down and a destination two levels down, following CPython:
  - a missing source makes `os.rename` (and the copy fallback) fail;
  - a missing or non-directory destination parent makes them fail;
  - if the destination `directory/base/f` is itself a directory, the real
    destination becomes `directory/base/f/f`, and `shutil.move` raises if
    that path already exists;
  - `base = f` with a directory at `directory/f` means moving a directory
    into itself, which `shutil.move` rejects;
  - a plain-file destination that already exists is silently overwritten by
    `os.rename` (POSIX) when the source is a file, and is an error when the
    source is a directory.
Returns the new listing and the destination path actually used, or `none`
for a raised exception. -/
def shutilMove (fs : List (String × Entry)) (f base : String) :
    Option (List (String × Entry) × List String) :=
  match lookupE fs f with
  | none => none
  | some src =>
    match lookupE fs base with
    | none => none
    | some Entry.file => none
    | some (Entry.dir ch) =>
      if base = f then none
      else
        match lookupE ch f with
        | some (Entry.dir ch2) =>
          match lookupE ch2 f with
          | some _ => none
          | none =>
            some (setE (eraseE fs f) base
                    (Entry.dir (setE ch f (Entry.dir (ch2 ++ [(f, src)])))),
                  [base, f, f])
        | some Entry.file =>
          match src with
          | Entry.dir _ => none
          | Entry.file => some (setE (eraseE fs f) base (Entry.dir (setE ch f src)), [base, f])
        | none => some (setE (eraseE fs f) base (Entry.dir (ch ++ [(f, src)])), [base, f])

/-- State threaded through step 3: the current listing, the moves performed
so far (source name and destination path, the printed log), and whether an
exception has aborted the run. -/
structure MoveState : Type where
  fs : List (String × Entry)
  moved : List (String × List String)
  fault : Bool

/-- The (base, file) pairs enumerated by the two nested loops of step 3, in
their exact order: groups in `file_map` insertion order, files in list
order. -/
def movePlan (fm : List (String × List String)) : List (String × String) :=
  fm.flatMap (fun g => g.2.map (fun f => (g.1, f)))

/-- One move of step 3; once a fault has occurred the remaining iterations
never run (the exception propagates out of the loops). -/
def relocStep (st : MoveState) (it : String × String) : MoveState :=
  if st.fault then st
  else
    match shutilMove st.fs it.2 it.1 with
    | some r => { fs := r.1, moved := st.moved ++ [(it.2, r.2)], fault := false }
    | none => { st with fault := true }

/-- Step 3 of `create_and_move_files`: move every grouped file into the
folder named by its group key. -/
def relocate (d : List (String × Entry)) (fm : List (String × List String)) : MoveState :=
  (movePlan fm).foldl relocStep { fs := d, moved := [], fault := false }

/-- Observable outcome of one run: the final listing, the folders created,
the moves performed, and whether the run aborted with an exception. -/
structure RunResult : Type where
  fs : List (String × Entry)
  created : List String
  moved : List (String × List String)
  fault : Bool

/-- `create_and_move_files(directory)` (the spec's `organize`): scan, then
create missing group folders, then relocate the grouped files, stopping at
the first fault. -/
def organize (d : List (String × Entry)) : RunResult :=
  let s := scan d
  let e := ensureFolders d (namesOf s.fm)
  let r := relocate e.1 s.fm
  { fs := r.fs, created := e.2, moved := r.moved, fault := r.fault }

/-- Model of the script entry point, lines 46-47:
`if __name__ == '__main__': create_and_move_files()`.
The process world maps a path to the listing of the directory there, `cwd`
is the current working directory (the default `directory='.'`), and `argv`
is the command line after the script name.  The call passes no argument, so
the run always operates on the current working directory. -/
def mainEntry (world : String → List (String × Entry)) (cwd : String)
    (_argv : List String) : RunResult :=
  organize (world cwd)

/- ### Association-list lemmas -/

theorem lookupE_eq_none {α : Type} (l : List (String × α)) (k : String) :
    lookupE l k = none ↔ k ∉ namesOf l := by
  induction l with
  | nil => simp [lookupE, namesOf]
  | cons x rest ih =>
    obtain ⟨n, e⟩ := x
    by_cases h : n = k
    · subst h
      simp [lookupE, namesOf]
    · simp only [lookupE, namesOf, List.map_cons, List.mem_cons, if_neg h]
      rw [ih]
      simp [namesOf]
      tauto

theorem mem_of_lookupE {α : Type} {l : List (String × α)} {k : String} {v : α}
    (h : lookupE l k = some v) : (k, v) ∈ l := by
  induction l with
  | nil => simp [lookupE] at h
  | cons x rest ih =>
    obtain ⟨n, e⟩ := x
    by_cases hn : n = k
    · subst hn
      simp [lookupE] at h
      simp [h]
    · simp only [lookupE, if_neg hn] at h
      exact List.mem_cons_of_mem _ (ih h)

theorem lookupE_append_some {α : Type} {l : List (String × α)} {k : String} {v : α}
    (m : List (String × α)) (h : lookupE l k = some v) : lookupE (l ++ m) k = some v := by
  induction l with
  | nil => simp [lookupE] at h
  | cons x rest ih =>
    obtain ⟨n, e⟩ := x
    by_cases hn : n = k
    · subst hn
      simp_all [lookupE]
    · simp_all [lookupE, if_neg hn]

theorem lookupE_append_none {α : Type} {l : List (String × α)} {k : String}
    (m : List (String × α)) (h : lookupE l k = none) :
    lookupE (l ++ m) k = lookupE m k := by
  induction l with
  | nil => simp
  | cons x rest ih =>
    obtain ⟨n, e⟩ := x
    by_cases hn : n = k
    · simp [lookupE, if_pos hn] at h
    · simp only [lookupE, if_neg hn] at h
      simp only [List.cons_append, lookupE, if_neg hn]
      exact ih h

theorem lookupE_of_mem_nodup {α : Type} {l : List (String × α)} {k : String} {v : α}
    (h : (k, v) ∈ l) (hn : (namesOf l).Nodup) : lookupE l k = some v := by
  induction l with
  | nil => simp at h
  | cons x rest ih =>
    obtain ⟨n, e⟩ := x
    simp only [namesOf, List.map_cons, List.nodup_cons] at hn
    rcases List.mem_cons.mp h with h1 | h1
    · obtain ⟨hk, hv⟩ := Prod.mk.injEq .. ▸ h1
      simp [lookupE, hk.symm, hv.symm]
    · by_cases hk : n = k
      · subst hk
        exact absurd (List.mem_map_of_mem Prod.fst h1) hn.1
      · simp only [lookupE, if_neg hk]
        exact ih h1 hn.2

theorem eraseE_sublist {α : Type} (l : List (String × α)) (k : String) :
    (eraseE l k).Sublist l := by
  induction l with
  | nil => simp [eraseE]
  | cons x rest ih =>
    obtain ⟨n, e⟩ := x
    by_cases hn : n = k
    · simp [eraseE, if_pos hn]
    · simpa [eraseE, if_neg hn] using ih.cons₂ (n, e)

theorem mem_eraseE {α : Type} {l : List (String × α)} {k : String} {x : String × α}
    (h : x ∈ eraseE l k) : x ∈ l :=
  (eraseE_sublist l k).subset h

theorem lookupE_eraseE_ne {α : Type} (l : List (String × α)) {k m : String}
    (h : m ≠ k) : lookupE (eraseE l k) m = lookupE l m := by
  induction l with
  | nil => simp [eraseE]
  | cons x rest ih =>
    obtain ⟨n, e⟩ := x
    by_cases hn : n = k
    · subst hn
      have hnm : ¬(n = m) := fun hh => h hh.symm
      simp [eraseE, lookupE, hnm]
    · by_cases hm : n = m
      · simp [eraseE, lookupE, if_neg hn, if_pos hm]
      · simp [eraseE, lookupE, if_neg hn, if_neg hm, ih]

theorem namesOf_eraseE {α : Type} (l : List (String × α)) (k : String) :
    namesOf (eraseE l k) = (namesOf l).erase k := by
  induction l with
  | nil => simp [eraseE, namesOf]
  | cons x rest ih =>
    obtain ⟨n, e⟩ := x
    by_cases hn : n = k
    · subst hn
      simp [eraseE, namesOf, List.erase_cons_head]
    · rw [show namesOf ((n, e) :: rest) = n :: namesOf rest from rfl,
        List.erase_cons_tail]
      · simp [eraseE, if_neg hn, namesOf] at ih ⊢
        exact ih
      · simp [hn]

theorem lookupE_eraseE_self {α : Type} {l : List (String × α)} {k : String}
    (hn : (namesOf l).Nodup) : lookupE (eraseE l k) k = none := by
  rw [lookupE_eq_none, namesOf_eraseE]
  exact fun hmem => (hn.mem_erase_iff.mp hmem).1 rfl

theorem namesOf_setE {α : Type} (l : List (String × α)) (k : String) (v : α) :
    namesOf (setE l k v) = namesOf l := by
  induction l with
  | nil => simp [setE]
  | cons x rest ih =>
    obtain ⟨n, e⟩ := x
    by_cases hn : n = k
    · subst hn
      simp [setE, namesOf]
    · simp [setE, if_neg hn, namesOf] at ih ⊢
      exact ih

theorem lookupE_setE_self {α : Type} {l : List (String × α)} {k : String}
    (hk : k ∈ namesOf l) (v : α) : lookupE (setE l k v) k = some v := by
  induction l with
  | nil => simp [namesOf] at hk
  | cons x rest ih =>
    obtain ⟨n, e⟩ := x
    by_cases hn : n = k
    · simp [setE, if_pos hn, lookupE]
    · simp only [setE, if_neg hn, lookupE, if_neg hn]
      simp only [namesOf, List.map_cons, List.mem_cons] at hk
      exact ih (hk.resolve_left (fun h => hn h.symm))

theorem lookupE_setE_ne {α : Type} (l : List (String × α)) {k m : String}
    (h : m ≠ k) (v : α) : lookupE (setE l k v) m = lookupE l m := by
  induction l with
  | nil => simp [setE]
  | cons x rest ih =>
    obtain ⟨n, e⟩ := x
    by_cases hn : n = k
    · subst hn
      have hnm : ¬(n = m) := fun hh => h hh.symm
      simp [setE, lookupE, hnm]
    · by_cases hm : n = m
      · simp [setE, lookupE, if_neg hn, if_pos hm]
      · simp [setE, lookupE, if_neg hn, if_neg hm, ih]

theorem mem_setE {α : Type} {l : List (String × α)} {k : String} {v : α}
    {x : String × α} (h : x ∈ setE l k v) : x ∈ l ∨ x = (k, v) := by
  induction l with
  | nil => simp [setE] at h
  | cons y rest ih =>
    obtain ⟨n, e⟩ := y
    by_cases hn : n = k
    · simp only [setE, if_pos hn] at h
      rcases List.mem_cons.mp h with h1 | h1
      · exact Or.inr h1
      · exact Or.inl (List.mem_cons_of_mem _ h1)
    · simp only [setE, if_neg hn] at h
      rcases List.mem_cons.mp h with h1 | h1
      · exact Or.inl (h1 ▸ List.mem_cons_self _ _)
      · rcases ih h1 with h2 | h2
        · exact Or.inl (List.mem_cons_of_mem _ h2)
        · exact Or.inr h2

theorem mem_setE_of_ne {α : Type} {l : List (String × α)} {k n : String} {e : α}
    (h : (n, e) ∈ l) (hne : n ≠ k) (v : α) : (n, e) ∈ setE l k v := by
  induction l with
  | nil => simp at h
  | cons y rest ih =>
    obtain ⟨m, w⟩ := y
    by_cases hm : m = k
    · simp only [setE, if_pos hm]
      rcases List.mem_cons.mp h with h1 | h1
      · obtain ⟨h2, _⟩ := Prod.mk.injEq .. ▸ h1
        exact absurd (h2.trans hm) hne
      · exact List.mem_cons_of_mem _ h1
    · simp only [setE, if_neg hm]
      rcases List.mem_cons.mp h with h1 | h1
      · exact h1 ▸ List.mem_cons_self _ _
      · exact List.mem_cons_of_mem _ (ih h1)

theorem setE_lookup_eq_self {α : Type} {l : List (String × α)} {k : String} {v : α}
    (h : lookupE l k = some v) : setE l k v = l := by
  induction l with
  | nil => simp [lookupE] at h
  | cons x rest ih =>
    obtain ⟨n, e⟩ := x
    by_cases hn : n = k
    · subst hn
      have he : e = v := by simpa [lookupE] using h
      simp [setE, he]
    · simp only [lookupE, if_neg hn] at h
      simp [setE, if_neg hn, ih h]

/- ### Stem (os.path.splitext) lemmas -/

theorem lastIdxOf_eq_none {c : Char} : ∀ {l : List Char}, lastIdxOf c l = none ↔ c ∉ l := by
  intro l
  induction l with
  | nil => simp [lastIdxOf]
  | cons x xs ih =>
    simp only [lastIdxOf, List.mem_cons]
    cases hx : lastIdxOf c xs with
    | some i =>
      simp [hx] at ih ⊢
      exact fun _ => ih
    | none =>
      simp [hx] at ih ⊢
      constructor
      · intro h
        exact ⟨fun he => h he.symm, ih⟩
      · intro h he
        exact h.1 he.symm

theorem lastIdxOf_cons_pos {c x : Char} {xs : List Char} {i : Nat}
    (hx : x ≠ c) (h : lastIdxOf c (x :: xs) = some i) : 1 ≤ i := by
  simp only [lastIdxOf] at h
  cases hj : lastIdxOf c xs with
  | some j => rw [hj] at h; cases h; omega
  | none => rw [hj, if_neg hx] at h; cases h

theorem stemChars_none {cs : List Char} (h : lastIdxOf '.' cs = none) :
    stemChars cs = cs := by
  unfold stemChars
  rw [h]

theorem stemChars_some {cs : List Char} {i : Nat} (h : lastIdxOf '.' cs = some i) :
    stemChars cs =
      if (cs.take i).any (fun c => c ≠ '.') then cs.take i else cs := by
  unfold stemChars
  rw [h]

theorem stemChars_no_dot {cs : List Char} (h : ('.' : Char) ∉ cs) : stemChars cs = cs :=
  stemChars_none (lastIdxOf_eq_none.mpr h)

theorem stem_no_dot {s : String} (h : ('.' : Char) ∉ s.data) : stem s = s := by
  obtain ⟨l⟩ := s
  show (⟨stemChars l⟩ : String) = ⟨l⟩
  rw [stemChars_no_dot h]

theorem stemChars_head {x : Char} (xs : List Char) (hx : x ≠ '.') :
    stemChars (x :: xs) = x :: xs ∨ ∃ ys, stemChars (x :: xs) = x :: ys := by
  cases hi : lastIdxOf '.' (x :: xs) with
  | none => exact Or.inl (stemChars_none hi)
  | some i =>
    rw [stemChars_some hi]
    by_cases hany : ((x :: xs).take i).any (fun c => c ≠ '.') = true
    · refine Or.inr ⟨xs.take (i - 1), ?_⟩
      rw [if_pos hany]
      have h1 : 1 ≤ i := lastIdxOf_cons_pos hx hi
      obtain ⟨j, rfl⟩ : ∃ j, i = j + 1 := ⟨i - 1, by omega⟩
      simp [List.take_succ_cons]
    · rw [if_neg hany]
      exact Or.inl rfl

theorem startsWithDot_stem {s : String} (h : startsWithDot s = false) :
    startsWithDot (stem s) = false := by
  obtain ⟨l⟩ := s
  cases l with
  | nil =>
    show startsWithDot ⟨stemChars []⟩ = false
    rw [stemChars_no_dot (by simp)]
    rfl
  | cons x xs =>
    have hx : x ≠ '.' := by simpa [startsWithDot] using h
    show startsWithDot ⟨stemChars (x :: xs)⟩ = false
    rcases stemChars_head xs hx with h1 | ⟨ys, h1⟩
    · rw [h1]
      simpa [startsWithDot] using hx
    · rw [h1]
      simpa [startsWithDot] using hx

theorem lastIdxOf_append_self (c : Char) (l : List Char) :
    lastIdxOf c (l ++ [c]) = some l.length := by
  induction l with
  | nil => simp [lastIdxOf]
  | cons x xs ih => simp [lastIdxOf, ih]

theorem stemChars_append_dot {cs : List Char} (hne : cs ≠ [])
    (h : ('.' : Char) ∉ cs) : stemChars (cs ++ ['.']) = cs := by
  rw [stemChars_some (lastIdxOf_append_self '.' cs)]
  have ht : (cs ++ ['.']).take cs.length = cs := by
    simp
  rw [ht]
  cases cs with
  | nil => exact absurd rfl hne
  | cons x xs =>
    have hx : x ≠ '.' := fun he => h (he ▸ List.mem_cons_self _ _)
    rw [if_pos]
    simp only [List.any_cons, Bool.or_eq_true, List.any_eq_true, decide_eq_true_eq]
    exact Or.inl (by simpa using hx)

theorem stem_append_dot {s : String} (hne : s ≠ "") (h : ('.' : Char) ∉ s.data) :
    stem (s ++ ".") = s := by
  obtain ⟨l⟩ := s
  have hl : l ≠ [] := by
    intro hd
    exact hne (by rw [hd])
  show (⟨stemChars (l ++ ['.'])⟩ : String) = ⟨l⟩
  rw [stemChars_append_dot hl h]

/- ### file_map (defaultdict) lemmas -/

theorem fmapAdd_mem_elem {m : List (String × List String)} {k v b : String}
    {fl : List String} {f : String} (hm : (b, fl) ∈ fmapAdd m k v) (hf : f ∈ fl) :
    (∃ fl', (b, fl') ∈ m ∧ f ∈ fl') ∨ (b = k ∧ f = v) := by
  induction m with
  | nil =>
    simp [fmapAdd] at hm
    obtain ⟨h1, h2⟩ := hm
    subst h1; subst h2
    simp at hf
    exact Or.inr ⟨rfl, hf⟩
  | cons y rest ih =>
    obtain ⟨k', vs⟩ := y
    by_cases hk : k' = k
    · subst hk
      simp only [fmapAdd, if_pos rfl] at hm
      rcases List.mem_cons.mp hm with h1 | h1
      · obtain ⟨hb, hfl⟩ := Prod.mk.injEq .. ▸ h1
        subst hb
        subst hfl
        rcases List.mem_append.mp hf with h2 | h2
        · exact Or.inl ⟨vs, List.mem_cons_self _ _, h2⟩
        · simp at h2
          exact Or.inr ⟨rfl, h2⟩
      · exact Or.inl ⟨fl, List.mem_cons_of_mem _ h1, hf⟩
    · simp only [fmapAdd, if_neg hk] at hm
      rcases List.mem_cons.mp hm with h1 | h1
      · exact Or.inl ⟨fl, h1 ▸ List.mem_cons_self _ _, hf⟩
      · rcases ih h1 with ⟨fl', h2, h3⟩ | h2
        · exact Or.inl ⟨fl', List.mem_cons_of_mem _ h2, h3⟩
        · exact Or.inr h2

theorem namesOf_fmapAdd (m : List (String × List String)) (k v : String) :
    namesOf (fmapAdd m k v) =
      if k ∈ namesOf m then namesOf m else namesOf m ++ [k] := by
  induction m with
  | nil => simp [fmapAdd, namesOf]
  | cons y rest ih =>
    obtain ⟨k', vs⟩ := y
    by_cases hk : k' = k
    · subst hk
      simp [fmapAdd, namesOf]
    · simp only [fmapAdd, if_neg hk]
      have : namesOf ((k', vs) :: fmapAdd rest k v) = k' :: namesOf (fmapAdd rest k v) := rfl
      rw [this, ih]
      by_cases hmem : k ∈ namesOf rest
      · rw [if_pos hmem, if_pos]
        · rfl
        · exact List.mem_cons_of_mem _ hmem
      · rw [if_neg hmem, if_neg]
        · rfl
        · simp only [namesOf, List.map_cons, List.mem_cons]
          push_neg
          exact ⟨fun h => hk h.symm, by simpa [namesOf] using hmem⟩

theorem lookupE_fmapAdd_self (m : List (String × List String)) (k v : String) :
    lookupE (fmapAdd m k v) k = some (((lookupE m k).getD []) ++ [v]) := by
  induction m with
  | nil => simp [fmapAdd, lookupE]
  | cons y rest ih =>
    obtain ⟨k', vs⟩ := y
    by_cases hk : k' = k
    · subst hk
      simp [fmapAdd, lookupE]
    · simp [fmapAdd, lookupE, if_neg hk, ih]

theorem lookupE_fmapAdd_ne (m : List (String × List String)) {k k' : String}
    (h : k' ≠ k) (v : String) : lookupE (fmapAdd m k v) k' = lookupE m k' := by
  induction m with
  | nil =>
    have hk : ¬(k = k') := fun hh => h hh.symm
    simp [fmapAdd, lookupE, hk]
  | cons y rest ih =>
    obtain ⟨n, vs⟩ := y
    by_cases hn : n = k
    · subst hn
      have hnk : ¬(n = k') := fun hh => h hh.symm
      simp [fmapAdd, lookupE, hnk]
    · by_cases hm : n = k'
      · simp [fmapAdd, lookupE, if_neg hn, if_pos hm]
      · simp [fmapAdd, lookupE, if_neg hn, if_neg hm, ih]

theorem fmapAdd_mem_strong {m : List (String × List String)} {k v b : String}
    {fl : List String} (hm : (b, fl) ∈ fmapAdd m k v) :
    (b, fl) ∈ m ∨ (b = k ∧ ∃ vs, fl = vs ++ [v] ∧ (vs = [] ∨ (k, vs) ∈ m)) := by
  induction m with
  | nil =>
    simp [fmapAdd] at hm
    exact Or.inr ⟨hm.1, [], by simp [hm.2], Or.inl rfl⟩
  | cons y rest ih =>
    obtain ⟨k', vs0⟩ := y
    by_cases hk : k' = k
    · subst hk
      simp only [fmapAdd, if_pos rfl] at hm
      rcases List.mem_cons.mp hm with h1 | h1
      · obtain ⟨hb, hfl⟩ := Prod.mk.injEq .. ▸ h1
        exact Or.inr ⟨hb, vs0, hfl, Or.inr (List.mem_cons_self _ _)⟩
      · exact Or.inl (List.mem_cons_of_mem _ h1)
    · simp only [fmapAdd, if_neg hk] at hm
      rcases List.mem_cons.mp hm with h1 | h1
      · exact Or.inl (h1 ▸ List.mem_cons_self _ _)
      · rcases ih h1 with h2 | ⟨h2, vs, h3, h4⟩
        · exact Or.inl (List.mem_cons_of_mem _ h2)
        · refine Or.inr ⟨h2, vs, h3, ?_⟩
          rcases h4 with h4 | h4
          · exact Or.inl h4
          · exact Or.inr (List.mem_cons_of_mem _ h4)

/- ### Scan-pass lemmas -/

theorem scan_fm_rec (P : String → String → Prop) :
    ∀ (l : List (String × Entry)) (acc : ScanResult),
      (∀ b fl, (b, fl) ∈ acc.fm → ∀ f ∈ fl, P b f) →
      (∀ n e, (n, e) ∈ l → e = Entry.file → startsWithDot n = false → P (stem n) n) →
      ∀ b fl, (b, fl) ∈ (l.foldl scanStep acc).fm → ∀ f ∈ fl, P b f := by
  intro l
  induction l with
  | nil => exact fun acc hacc _ => hacc
  | cons x rest ih =>
    intro acc hacc hl
    rw [List.foldl_cons]
    refine ih (scanStep acc x) ?_ (fun n e hne => hl n e (List.mem_cons_of_mem _ hne))
    intro b' fl' hm' f' hf'
    obtain ⟨n, e⟩ := x
    cases hdd : startsWithDot n with
    | true =>
      simp only [scanStep, hdd, if_pos] at hm'
      exact hacc b' fl' hm' f' hf'
    | false =>
      cases e with
      | dir ch =>
        simp only [scanStep, hdd] at hm'
        exact hacc b' fl' hm' f' hf'
      | file =>
        simp only [scanStep, hdd] at hm'
        simp only [Bool.false_eq_true, if_false] at hm'
        rcases fmapAdd_mem_elem hm' hf' with ⟨fl0, h1, h2⟩ | ⟨h1, h2⟩
        · exact hacc b' fl0 h1 f' h2
        · rw [h1, h2]
          exact hl n Entry.file (List.mem_cons_self _ _) rfl hdd

theorem scan_fm_sound {d : List (String × Entry)} {b : String} {fl : List String}
    (hm : (b, fl) ∈ (scan d).fm) :
    ∀ f ∈ fl, (f, Entry.file) ∈ d ∧ startsWithDot f = false ∧ b = stem f :=
  scan_fm_rec
    (fun b f => (f, Entry.file) ∈ d ∧ startsWithDot f = false ∧ b = stem f)
    d { fm := [], folders := [] } (by simp)
    (fun n e hn he hh => by subst he; exact ⟨hn, hh, rfl⟩) b fl hm

theorem scan_fm_ne_nil :
    ∀ (l : List (String × Entry)) (acc : ScanResult),
      (∀ b fl, (b, fl) ∈ acc.fm → fl ≠ []) →
      ∀ b fl, (b, fl) ∈ (l.foldl scanStep acc).fm → fl ≠ [] := by
  intro l
  induction l with
  | nil => exact fun acc hacc => hacc
  | cons x rest ih =>
    intro acc hacc
    rw [List.foldl_cons]
    refine ih (scanStep acc x) ?_
    intro b' fl' hm'
    obtain ⟨n, e⟩ := x
    cases hdd : startsWithDot n with
    | true =>
      simp only [scanStep, hdd, if_pos] at hm'
      exact hacc b' fl' hm'
    | false =>
      cases e with
      | dir ch =>
        simp only [scanStep, hdd] at hm'
        exact hacc b' fl' hm'
      | file =>
        simp only [scanStep, hdd, Bool.false_eq_true, if_false] at hm'
        rcases fmapAdd_mem_strong hm' with h1 | ⟨_, vs, h2, _⟩
        · exact hacc b' fl' h1
        · subst h2
          simp

theorem scan_fm_mono :
    ∀ (l : List (String × Entry)) (acc : ScanResult) (b f : String) (fl : List String),
      lookupE acc.fm b = some fl → f ∈ fl →
      ∃ fl', lookupE (l.foldl scanStep acc).fm b = some fl' ∧ f ∈ fl' := by
  intro l
  induction l with
  | nil => exact fun acc _ _ _ h hf => ⟨_, h, hf⟩
  | cons x rest ih =>
    intro acc b f fl h hf
    rw [List.foldl_cons]
    obtain ⟨n, e⟩ := x
    cases hdd : startsWithDot n with
    | true =>
      refine ih _ b f fl ?_ hf
      simpa only [scanStep, hdd, if_pos] using h
    | false =>
      cases e with
      | dir ch =>
        refine ih _ b f fl ?_ hf
        simpa only [scanStep, hdd] using h
      | file =>
        by_cases hb : b = stem n
        · refine ih _ b f (fl ++ [n]) ?_ (List.mem_append_left _ hf)
          simp only [scanStep, hdd, Bool.false_eq_true, if_false]
          rw [hb, lookupE_fmapAdd_self]
          rw [hb] at h
          rw [h]
          rfl
        · refine ih _ b f fl ?_ hf
          simp only [scanStep, hdd, Bool.false_eq_true, if_false]
          rw [lookupE_fmapAdd_ne _ hb, h]

theorem scan_complete :
    ∀ (l : List (String × Entry)) (acc : ScanResult) {f : String},
      (f, Entry.file) ∈ l → startsWithDot f = false →
      ∃ fl, lookupE (l.foldl scanStep acc).fm (stem f) = some fl ∧ f ∈ fl := by
  intro l
  induction l with
  | nil => intro acc f h; simp at h
  | cons x rest ih =>
    intro acc f hmem hh
    rw [List.foldl_cons]
    rcases List.mem_cons.mp hmem with h1 | h1
    · have hstep : lookupE (scanStep acc x).fm (stem f) =
          some (((lookupE acc.fm (stem f)).getD []) ++ [f]) := by
        rw [← h1]
        simp only [scanStep, hh, Bool.false_eq_true, if_false]
        exact lookupE_fmapAdd_self _ _ _
      exact scan_fm_mono rest _ _ _ _ hstep (List.mem_append_right _ (List.mem_singleton.mpr rfl))
    · exact ih _ h1 hh

theorem scan_keys_nodup_rec :
    ∀ (l : List (String × Entry)) (acc : ScanResult),
      (namesOf acc.fm).Nodup → (namesOf (l.foldl scanStep acc).fm).Nodup := by
  intro l
  induction l with
  | nil => exact fun acc h => h
  | cons x rest ih =>
    intro acc hacc
    rw [List.foldl_cons]
    refine ih (scanStep acc x) ?_
    obtain ⟨n, e⟩ := x
    cases hdd : startsWithDot n with
    | true => simpa only [scanStep, hdd, if_pos] using hacc
    | false =>
      cases e with
      | dir ch => simpa only [scanStep, hdd] using hacc
      | file =>
        simp only [scanStep, hdd, Bool.false_eq_true, if_false]
        rw [namesOf_fmapAdd]
        by_cases hmem : stem n ∈ namesOf acc.fm
        · rwa [if_pos hmem]
        · rw [if_neg hmem]
          simp [List.nodup_append, hacc, hmem]

theorem scan_keys_nodup (d : List (String × Entry)) : (namesOf (scan d).fm).Nodup :=
  scan_keys_nodup_rec d _ (by simp [namesOf])

theorem scan_fm_nodup_rec :
    ∀ (l : List (String × Entry)) (acc : ScanResult),
      (namesOf l).Nodup →
      (∀ b fl, (b, fl) ∈ acc.fm → fl.Nodup ∧ ∀ f ∈ fl, f ∉ namesOf l) →
      ∀ b fl, (b, fl) ∈ (l.foldl scanStep acc).fm → fl.Nodup := by
  intro l
  induction l with
  | nil => exact fun acc _ hacc b fl hm => (hacc b fl hm).1
  | cons x rest ih =>
    intro acc hl hacc
    rw [List.foldl_cons]
    obtain ⟨n, e⟩ := x
    have hcons : namesOf ((n, e) :: rest) = n :: namesOf rest := rfl
    rw [hcons] at hl
    have hn : n ∉ namesOf rest := (List.nodup_cons.mp hl).1
    have hl' : (namesOf rest).Nodup := (List.nodup_cons.mp hl).2
    refine ih (scanStep acc (n, e)) hl' ?_
    intro b' fl' hm'
    cases hdd : startsWithDot n with
    | true =>
      simp only [scanStep, hdd, if_pos] at hm'
      obtain ⟨h1, h2⟩ := hacc b' fl' hm'
      exact ⟨h1, fun f hf => fun hc => h2 f hf (List.mem_cons_of_mem _ hc)⟩
    | false =>
      cases e with
      | dir ch =>
        simp only [scanStep, hdd] at hm'
        obtain ⟨h1, h2⟩ := hacc b' fl' hm'
        exact ⟨h1, fun f hf => fun hc => h2 f hf (List.mem_cons_of_mem _ hc)⟩
      | file =>
        simp only [scanStep, hdd, Bool.false_eq_true, if_false] at hm'
        rcases fmapAdd_mem_strong hm' with h1 | ⟨_, vs, h2, h3⟩
        · obtain ⟨h4, h5⟩ := hacc b' fl' h1
          exact ⟨h4, fun f hf => fun hc => h5 f hf (List.mem_cons_of_mem _ hc)⟩
        · subst h2
          rcases h3 with h3 | h3
          · subst h3
            exact ⟨by simp, fun f hf => by simp at hf; subst hf; exact hn⟩
          · obtain ⟨h4, h5⟩ := hacc _ _ h3
            have hnvs : n ∉ vs := fun hc =>
              h5 n hc (List.mem_cons_self _ _)
            constructor
            · simp [List.nodup_append, h4, hnvs]
            · intro f hf
              rcases List.mem_append.mp hf with h6 | h6
              · exact fun hc => h5 f h6 (List.mem_cons_of_mem _ hc)
              · simp at h6
                subst h6
                exact hn

theorem scan_fm_nodup {d : List (String × Entry)} (hd : (namesOf d).Nodup) :
    ∀ b fl, (b, fl) ∈ (scan d).fm → fl.Nodup :=
  scan_fm_nodup_rec d _ hd (by simp)

theorem scan_folders_rec :
    ∀ (l : List (String × Entry)) (acc : ScanResult),
      (∀ h ∈ acc.folders, startsWithDot h = false) →
      ∀ h ∈ (l.foldl scanStep acc).folders, startsWithDot h = false := by
  intro l
  induction l with
  | nil => exact fun acc hacc => hacc
  | cons x rest ih =>
    intro acc hacc
    rw [List.foldl_cons]
    refine ih (scanStep acc x) ?_
    intro h hm
    obtain ⟨n, e⟩ := x
    cases hdd : startsWithDot n with
    | true =>
      simp only [scanStep, hdd, if_pos] at hm
      exact hacc h hm
    | false =>
      cases e with
      | dir ch =>
        simp only [scanStep, hdd, Bool.false_eq_true, if_false] at hm
        rcases List.mem_append.mp hm with h1 | h1
        · exact hacc h h1
        · simp at h1
          subst h1
          exact hdd
      | file =>
        simp only [scanStep, hdd] at hm
        exact hacc h hm

theorem scan_keys_not_hidden {d : List (String × Entry)} {b : String}
    (hb : b ∈ namesOf (scan d).fm) : startsWithDot b = false := by
  obtain ⟨⟨b', fl⟩, hmem, hb'⟩ := List.mem_map.mp hb
  subst hb'
  have hne : fl ≠ [] := scan_fm_ne_nil d _ (by simp) _ _ hmem
  obtain ⟨f, hf⟩ : ∃ f, f ∈ fl := by
    cases fl with
    | nil => exact absurd rfl hne
    | cons a t => exact ⟨a, List.mem_cons_self _ _⟩
  obtain ⟨_, hh, hstem⟩ := scan_fm_sound hmem f hf
  rw [hstem]
  exact startsWithDot_stem hh

theorem movePlan_mem {fm : List (String × List String)} {x : String × String} :
    x ∈ movePlan fm ↔ ∃ fl, (x.1, fl) ∈ fm ∧ x.2 ∈ fl := by
  unfold movePlan
  rw [List.mem_flatMap]
  constructor
  · rintro ⟨g, hg, hx⟩
    rw [List.mem_map] at hx
    obtain ⟨f, hf, rfl⟩ := hx
    exact ⟨g.2, by simpa using hg, hf⟩
  · rintro ⟨fl, hfl, hf⟩
    refine ⟨(x.1, fl), hfl, ?_⟩
    rw [List.mem_map]
    exact ⟨x.2, hf, rfl⟩

/- ### Folder-creation (step 2) lemmas -/

theorem lookupE_of_append_none {α : Type} {l m : List (String × α)} {k : String}
    (h : lookupE (l ++ m) k = none) : lookupE l k = none := by
  rw [lookupE_eq_none] at h ⊢
  intro hc
  apply h
  simp only [namesOf, List.map_append, List.mem_append]
  exact Or.inl hc

theorem ensure_fold_mono :
    ∀ (ks : List String) (st : List (String × Entry)) (cr : List String) {n : String}
      {e : Entry}, lookupE st n = some e →
      lookupE (ks.foldl ensureStep (st, cr)).1 n = some e := by
  intro ks
  induction ks with
  | nil =>
    intro st cr n e h
    exact h
  | cons k ks ih =>
    intro st cr n e h
    rw [List.foldl_cons]
    cases hlk : lookupE st k with
    | some v =>
      simp only [ensureStep, hlk]
      exact ih st cr h
    | none =>
      simp only [ensureStep, hlk]
      exact ih _ _ (lookupE_append_some _ h)

theorem ensure_fold_dir :
    ∀ (ks : List String) (st : List (String × Entry)) (cr : List String) {n : String},
      n ∈ ks → (lookupE st n = none ∨ ∃ ch, lookupE st n = some (Entry.dir ch)) →
      ∃ ch, lookupE (ks.foldl ensureStep (st, cr)).1 n = some (Entry.dir ch) := by
  intro ks
  induction ks with
  | nil => intro st cr n h; simp at h
  | cons k ks ih =>
    intro st cr n hmem hdisj
    rw [List.foldl_cons]
    rcases List.mem_cons.mp hmem with h1 | h1
    · subst h1
      rcases hdisj with h2 | ⟨ch, h2⟩
      · simp only [ensureStep, h2]
        refine ⟨[], ensure_fold_mono ks _ _ ?_⟩
        rw [lookupE_append_none _ h2]
        simp [lookupE]
      · simp only [ensureStep, h2]
        exact ⟨ch, ensure_fold_mono ks _ _ h2⟩
    · cases hlk : lookupE st k with
      | some v =>
        simp only [ensureStep, hlk]
        exact ih st cr h1 hdisj
      | none =>
        simp only [ensureStep, hlk]
        refine ih _ _ h1 ?_
        rcases hdisj with h2 | ⟨ch, h2⟩
        · rw [lookupE_append_none _ h2]
          by_cases hk : k = n
          · subst hk
            exact Or.inr ⟨[], by simp [lookupE]⟩
          · exact Or.inl (by simp [lookupE, hk])
        · exact Or.inr ⟨ch, lookupE_append_some _ h2⟩

theorem ensure_fold_spec :
    ∀ (ks : List String) (st : List (String × Entry)) (cr : List String),
      ∃ new, ks.foldl ensureStep (st, cr) =
          (st ++ new.map (fun b => (b, Entry.dir [])), cr ++ new) ∧
        new.Nodup ∧ ∀ b ∈ new, b ∈ ks ∧ lookupE st b = none := by
  intro ks
  induction ks with
  | nil => exact fun st cr => ⟨[], by simp, List.nodup_nil, by simp⟩
  | cons k ks ih =>
    intro st cr
    rw [List.foldl_cons]
    cases hlk : lookupE st k with
    | some v =>
      obtain ⟨new, heq, hnd, hmem⟩ := ih st cr
      simp only [ensureStep, hlk]
      exact ⟨new, heq, hnd, fun b hb =>
        ⟨List.mem_cons_of_mem _ (hmem b hb).1, (hmem b hb).2⟩⟩
    | none =>
      simp only [ensureStep, hlk]
      obtain ⟨new, heq, hnd, hmem⟩ := ih (st ++ [(k, Entry.dir [])]) (cr ++ [k])
      refine ⟨k :: new, ?_, ?_, ?_⟩
      · rw [heq]
        simp [List.append_assoc]
      · refine List.nodup_cons.mpr ⟨?_, hnd⟩
        intro hc
        have h2 := (hmem k hc).2
        rw [lookupE_append_none _ hlk] at h2
        simp [lookupE] at h2
      · intro b hb
        rcases List.mem_cons.mp hb with h1 | h1
        · subst h1
          exact ⟨List.mem_cons_self _ _, hlk⟩
        · refine ⟨List.mem_cons_of_mem _ (hmem b h1).1, ?_⟩
          exact lookupE_of_append_none (hmem b h1).2

theorem ensureFolders_spec (d : List (String × Entry)) (keys : List String) :
    ∃ new, ensureFolders d keys = (d ++ new.map (fun b => (b, Entry.dir [])), new) ∧
      new.Nodup ∧ ∀ b ∈ new, b ∈ keys ∧ lookupE d b = none := by
  obtain ⟨new, heq, hnd, hmem⟩ := ensure_fold_spec keys d []
  exact ⟨new, by simpa using heq, hnd, hmem⟩

theorem ensureFolders_mono {d : List (String × Entry)} {keys : List String}
    {n : String} {e : Entry} (h : lookupE d n = some e) :
    lookupE (ensureFolders d keys).1 n = some e :=
  ensure_fold_mono keys d [] h

theorem ensureFolders_not_created {d : List (String × Entry)} {keys : List String}
    {b : String} {e : Entry} (h : lookupE d b = some e) :
    b ∉ (ensureFolders d keys).2 := by
  obtain ⟨new, heq, _, hmem⟩ := ensureFolders_spec d keys
  rw [heq]
  intro hc
  rw [(hmem b hc).2] at h
  cases h

theorem ensureFolders_names_nodup {d : List (String × Entry)} {keys : List String}
    (hd : (namesOf d).Nodup) : (namesOf (ensureFolders d keys).1).Nodup := by
  obtain ⟨new, heq, hnd, hmem⟩ := ensureFolders_spec d keys
  rw [heq]
  have hnames : namesOf (d ++ new.map (fun b => (b, Entry.dir []))) =
      namesOf d ++ new := by
    simp only [namesOf, List.map_append, List.map_map]
    rw [show (Prod.fst ∘ fun b : String => (b, Entry.dir [])) = id from rfl, List.map_id]
  rw [hnames]
  refine List.Nodup.append hd hnd ?_
  intro b hb hbn
  have h2 := (hmem b hbn).2
  rw [lookupE_eq_none] at h2
  exact h2 hb

theorem lookupE_map_dirs {new : List String} {b : String} (hb : b ∈ new) :
    lookupE (new.map (fun b => (b, Entry.dir []))) b = some (Entry.dir []) := by
  induction new with
  | nil => simp at hb
  | cons x rest ih =>
    by_cases hx : x = b
    · simp [lookupE, hx]
    · rcases List.mem_cons.mp hb with h1 | h1
      · exact absurd h1.symm hx
      · simp only [List.map_cons, lookupE, if_neg hx]
        exact ih h1

theorem ensureFolders_created_dir {d : List (String × Entry)} {keys : List String}
    {b : String} (hb : b ∈ (ensureFolders d keys).2) :
    lookupE (ensureFolders d keys).1 b = some (Entry.dir []) := by
  obtain ⟨new, heq, hnd, hmem⟩ := ensureFolders_spec d keys
  rw [heq] at hb ⊢
  rw [lookupE_append_none _ (hmem b hb).2]
  exact lookupE_map_dirs hb

theorem ensureFolders_file_entries {d : List (String × Entry)} {keys : List String}
    {n : String} (h : (n, Entry.file) ∈ (ensureFolders d keys).1) :
    (n, Entry.file) ∈ d := by
  obtain ⟨new, heq, _, _⟩ := ensureFolders_spec d keys
  rw [heq] at h
  rcases List.mem_append.mp h with h1 | h1
  · exact h1
  · obtain ⟨b, _, hb2⟩ := List.mem_map.mp h1
    cases hb2

/- ### Relocation (step 3) lemmas -/

theorem relocStep_fault_state {st : MoveState} (x : String × String)
    (h : st.fault = true) : relocStep st x = st := by
  simp [relocStep, h]

theorem reloc_fold_fault :
    ∀ (l : List (String × String)) (st : MoveState), st.fault = true →
      l.foldl relocStep st = st := by
  intro l
  induction l with
  | nil => exact fun st _ => rfl
  | cons x rest ih =>
    intro st h
    rw [List.foldl_cons, relocStep_fault_state x h]
    exact ih st h

theorem reloc_fold_fault_false {l : List (String × String)} {st : MoveState}
    (h : (l.foldl relocStep st).fault = false) : st.fault = false := by
  cases hst : st.fault with
  | false => rfl
  | true =>
    rw [reloc_fold_fault l st hst] at h
    rw [hst] at h
    cases h

theorem relocStep_ok {st : MoveState} {x : String × String}
    (hst : st.fault = false) (h : (relocStep st x).fault = false) :
    ∃ r, shutilMove st.fs x.2 x.1 = some r ∧
      relocStep st x = { fs := r.1, moved := st.moved ++ [(x.2, r.2)], fault := false } := by
  unfold relocStep at h ⊢
  rw [hst] at h ⊢
  simp only [Bool.false_eq_true, if_false] at h ⊢
  cases hm : shutilMove st.fs x.2 x.1 with
  | none =>
    simp only [hm] at h
    cases h
  | some r =>
    simp only [hm]
    exact ⟨r, rfl, rfl⟩

theorem shutilMove_cases {fs : List (String × Entry)} {f base : String}
    {r : List (String × Entry) × List String} (h : shutilMove fs f base = some r) :
    ∃ src ch, lookupE fs f = some src ∧ lookupE fs base = some (Entry.dir ch) ∧
      base ≠ f ∧
      ((∃ ch2, lookupE ch f = some (Entry.dir ch2) ∧ lookupE ch2 f = none ∧
          r = (setE (eraseE fs f) base
                (Entry.dir (setE ch f (Entry.dir (ch2 ++ [(f, src)])))), [base, f, f])) ∨
       (lookupE ch f = some Entry.file ∧ src = Entry.file ∧
          r = (setE (eraseE fs f) base (Entry.dir (setE ch f src)), [base, f])) ∨
       (lookupE ch f = none ∧
          r = (setE (eraseE fs f) base (Entry.dir (ch ++ [(f, src)])), [base, f]))) := by
  unfold shutilMove at h
  cases hsrc : lookupE fs f with
  | none =>
    simp only [hsrc] at h
    cases h
  | some src =>
    cases hbase : lookupE fs base with
    | none =>
      simp only [hsrc, hbase] at h
      cases h
    | some e =>
      cases e with
      | file =>
        simp only [hsrc, hbase] at h
        cases h
      | dir ch =>
        by_cases hbf : base = f
        · simp only [hsrc, hbase, if_pos hbf] at h
          cases h
        · refine ⟨src, ch, rfl, rfl, hbf, ?_⟩
          cases hcf : lookupE ch f with
          | none =>
            simp only [hsrc, hbase, if_neg hbf, hcf, Option.some.injEq] at h
            cases h
            exact Or.inr (Or.inr ⟨rfl, rfl⟩)
          | some e2 =>
            cases e2 with
            | file =>
              cases src with
              | dir ch0 =>
                simp only [hsrc, hbase, if_neg hbf, hcf] at h
                cases h
              | file =>
                simp only [hsrc, hbase, if_neg hbf, hcf, Option.some.injEq] at h
                cases h
                exact Or.inr (Or.inl ⟨rfl, rfl, rfl⟩)
            | dir ch2 =>
              cases hc2 : lookupE ch2 f with
              | some e3 =>
                simp only [hsrc, hbase, if_neg hbf, hcf, hc2] at h
                cases h
              | none =>
                simp only [hsrc, hbase, if_neg hbf, hcf, hc2, Option.some.injEq] at h
                cases h
                exact Or.inl ⟨ch2, rfl, hc2, rfl⟩

theorem shutilMove_fs_shape {fs : List (String × Entry)} {f base : String}
    {r : List (String × Entry) × List String} (h : shutilMove fs f base = some r) :
    ∃ X src ch, lookupE fs f = some src ∧ lookupE fs base = some (Entry.dir ch) ∧
      base ≠ f ∧ r.1 = setE (eraseE fs f) base (Entry.dir X) := by
  obtain ⟨src, ch, hsrc, hbase, hbf, hcase⟩ := shutilMove_cases h
  rcases hcase with ⟨ch2, _, _, hr⟩ | ⟨_, _, hr⟩ | ⟨_, hr⟩
  · exact ⟨_, src, ch, hsrc, hbase, hbf, by rw [hr]⟩
  · exact ⟨_, src, ch, hsrc, hbase, hbf, by rw [hr]⟩
  · exact ⟨_, src, ch, hsrc, hbase, hbf, by rw [hr]⟩

theorem moveFs_lookup_other {fs : List (String × Entry)} {f base : String}
    (X : Entry) {n : String} (hb : n ≠ base) (hf : n ≠ f) :
    lookupE (setE (eraseE fs f) base X) n = lookupE fs n := by
  rw [lookupE_setE_ne _ hb, lookupE_eraseE_ne _ hf]

theorem mem_namesOf_of_lookupE {α : Type} {l : List (String × α)} {k : String}
    {v : α} (h : lookupE l k = some v) : k ∈ namesOf l := by
  by_contra hc
  rw [← lookupE_eq_none] at hc
  rw [h] at hc
  cases hc

theorem moveFs_lookup_base {fs : List (String × Entry)} {f base : String}
    {e : Entry} (h : lookupE fs base = some e) (hbf : base ≠ f) (X : Entry) :
    lookupE (setE (eraseE fs f) base X) base = some X := by
  apply lookupE_setE_self
  rw [namesOf_eraseE]
  exact (List.mem_erase_of_ne hbf).mpr (mem_namesOf_of_lookupE h)

theorem moveFs_lookup_f {fs : List (String × Entry)} {f base : String}
    (hnodup : (namesOf fs).Nodup) (hbf : base ≠ f) (X : Entry) :
    lookupE (setE (eraseE fs f) base X) f = none := by
  rw [lookupE_setE_ne _ (fun hh => hbf hh.symm), lookupE_eraseE_self hnodup]

theorem moveFs_namesOf {fs : List (String × Entry)} {f base : String} (X : Entry) :
    namesOf (setE (eraseE fs f) base X) = (namesOf fs).erase f := by
  rw [namesOf_setE, namesOf_eraseE]

theorem relocStep_file_mono {st : MoveState} {x : String × String} {n : String}
    (h : (n, Entry.file) ∈ (relocStep st x).fs) : (n, Entry.file) ∈ st.fs := by
  cases hst : st.fault with
  | true => rwa [relocStep_fault_state x hst] at h
  | false =>
    unfold relocStep at h
    rw [hst] at h
    simp only [Bool.false_eq_true, if_false] at h
    cases hm : shutilMove st.fs x.2 x.1 with
    | none =>
      simp only [hm] at h
      exact h
    | some r =>
      simp only [hm] at h
      obtain ⟨X, src, ch, _, _, _, hr⟩ := shutilMove_fs_shape hm
      rw [hr] at h
      rcases mem_setE h with h1 | h1
      · exact mem_eraseE h1
      · cases h1

theorem reloc_fold_file_mono :
    ∀ (l : List (String × String)) (st : MoveState) {n : String},
      (n, Entry.file) ∈ (l.foldl relocStep st).fs → (n, Entry.file) ∈ st.fs := by
  intro l
  induction l with
  | nil =>
    intro st n h
    exact h
  | cons x rest ih =>
    intro st n h
    rw [List.foldl_cons] at h
    exact relocStep_file_mono (ih _ h)

theorem relocStep_split (st : MoveState) (x : String × String) :
    relocStep st x = st ∨ relocStep st x = { st with fault := true } ∨
    ∃ r, st.fault = false ∧ shutilMove st.fs x.2 x.1 = some r ∧
      relocStep st x = { fs := r.1, moved := st.moved ++ [(x.2, r.2)], fault := false } := by
  cases hst : st.fault with
  | true => exact Or.inl (relocStep_fault_state x hst)
  | false =>
    cases hm : shutilMove st.fs x.2 x.1 with
    | none =>
      refine Or.inr (Or.inl ?_)
      unfold relocStep
      rw [hst]
      simp only [Bool.false_eq_true, if_false, hm]
    | some r =>
      refine Or.inr (Or.inr ⟨r, rfl, rfl, ?_⟩)
      unfold relocStep
      rw [hst]
      simp only [Bool.false_eq_true, if_false, hm]

theorem relocStep_names_mono {st : MoveState} {x : String × String} {n : String}
    (h : n ∈ namesOf (relocStep st x).fs) : n ∈ namesOf st.fs := by
  rcases relocStep_split st x with hs | hs | ⟨r, _, hm, hs⟩
  · rwa [hs] at h
  · rwa [hs] at h
  · rw [hs] at h
    obtain ⟨X, src, ch, _, _, _, hr⟩ := shutilMove_fs_shape hm
    simp only at h
    rw [hr, moveFs_namesOf] at h
    exact List.mem_of_mem_erase h

theorem reloc_fold_names_mono :
    ∀ (l : List (String × String)) (st : MoveState) {n : String},
      n ∈ namesOf (l.foldl relocStep st).fs → n ∈ namesOf st.fs := by
  intro l
  induction l with
  | nil =>
    intro st n h
    exact h
  | cons x rest ih =>
    intro st n h
    rw [List.foldl_cons] at h
    exact relocStep_names_mono (ih _ h)

theorem reloc_fold_lookup_none {l : List (String × String)} {st : MoveState}
    {n : String} (h : lookupE st.fs n = none) :
    lookupE (l.foldl relocStep st).fs n = none := by
  rw [lookupE_eq_none] at h ⊢
  intro hc
  exact h (reloc_fold_names_mono l st hc)

theorem relocStep_nodup {st : MoveState} {x : String × String}
    (h : (namesOf st.fs).Nodup) : (namesOf (relocStep st x).fs).Nodup := by
  rcases relocStep_split st x with hs | hs | ⟨r, _, hm, hs⟩
  · rwa [hs]
  · rwa [hs]
  · rw [hs]
    obtain ⟨X, src, ch, _, _, _, hr⟩ := shutilMove_fs_shape hm
    simp only
    rw [hr, moveFs_namesOf]
    exact h.erase _

theorem relocStep_moved_mem {st : MoveState} {x : String × String}
    {sp : String × List String} (h : sp ∈ st.moved) : sp ∈ (relocStep st x).moved := by
  rcases relocStep_split st x with hs | hs | ⟨r, _, _, hs⟩
  · rwa [hs]
  · rwa [hs]
  · rw [hs]
    exact List.mem_append_left _ h

theorem reloc_fold_moved_mem :
    ∀ (l : List (String × String)) (st : MoveState) {sp : String × List String},
      sp ∈ st.moved → sp ∈ (l.foldl relocStep st).moved := by
  intro l
  induction l with
  | nil =>
    intro st sp h
    exact h
  | cons x rest ih =>
    intro st sp h
    rw [List.foldl_cons]
    exact ih _ (relocStep_moved_mem h)

theorem reloc_fold_moved_src :
    ∀ (l : List (String × String)) (st : MoveState) {s : String} {p : List String},
      (s, p) ∈ (l.foldl relocStep st).moved →
      (s, p) ∈ st.moved ∨ ∃ b, (b, s) ∈ l := by
  intro l
  induction l with
  | nil =>
    intro st s p h
    exact Or.inl h
  | cons x rest ih =>
    intro st s p h
    rw [List.foldl_cons] at h
    rcases ih _ h with h1 | ⟨b, h1⟩
    · rcases relocStep_split st x with hs | hs | ⟨r, _, _, hs⟩
      · rw [hs] at h1
        exact Or.inl h1
      · rw [hs] at h1
        exact Or.inl h1
      · rw [hs] at h1
        simp only at h1
        rcases List.mem_append.mp h1 with h2 | h2
        · exact Or.inl h2
        · simp only [List.mem_singleton] at h2
          obtain ⟨hs2, _⟩ := Prod.mk.injEq .. ▸ h2
          refine Or.inr ⟨x.1, ?_⟩
          rw [hs2]
          exact List.mem_cons_self _ _
    · exact Or.inr ⟨b, List.mem_cons_of_mem _ h1⟩

theorem relocStep_lookup_preserve {st : MoveState} {x : String × String} {h : String}
    (hb : x.1 ≠ h) (hf : x.2 ≠ h) :
    lookupE (relocStep st x).fs h = lookupE st.fs h := by
  rcases relocStep_split st x with hs | hs | ⟨r, _, hm, hs⟩
  · rw [hs]
  · rw [hs]
  · rw [hs]
    obtain ⟨X, src, ch, _, _, _, hr⟩ := shutilMove_fs_shape hm
    simp only
    rw [hr]
    exact moveFs_lookup_other _ (fun hh => hb hh.symm) (fun hh => hf hh.symm)

theorem reloc_fold_lookup_preserve :
    ∀ (l : List (String × String)) (st : MoveState) {h : String},
      (∀ x ∈ l, x.1 ≠ h ∧ x.2 ≠ h) →
      lookupE (l.foldl relocStep st).fs h = lookupE st.fs h := by
  intro l
  induction l with
  | nil =>
    intro st h _
    rfl
  | cons x rest ih =>
    intro st h hcond
    rw [List.foldl_cons]
    rw [ih _ (fun y hy => hcond y (List.mem_cons_of_mem _ hy))]
    exact relocStep_lookup_preserve (hcond x (List.mem_cons_self _ _)).1
      (hcond x (List.mem_cons_self _ _)).2

theorem reloc_fold_success_removed :
    ∀ (l : List (String × String)) (st : MoveState),
      (namesOf st.fs).Nodup → (l.foldl relocStep st).fault = false →
      ∀ x ∈ l, lookupE (l.foldl relocStep st).fs x.2 = none := by
  intro l
  induction l with
  | nil =>
    intro st _ _ x hx
    simp at hx
  | cons y rest ih =>
    intro st hnd hflt x hx
    rw [List.foldl_cons] at hflt ⊢
    have hst1 : (relocStep st y).fault = false := reloc_fold_fault_false hflt
    have hst : st.fault = false := by
      cases hs : st.fault with
      | false => rfl
      | true =>
        rw [relocStep_fault_state y hs] at hst1
        rw [hs] at hst1
        cases hst1
    rcases List.mem_cons.mp hx with h1 | h1
    · subst h1
      obtain ⟨r, hm, hstep⟩ := relocStep_ok hst hst1
      obtain ⟨X, src, ch, _, _, hbf, hr⟩ := shutilMove_fs_shape hm
      have hgone : lookupE (relocStep st x).fs x.2 = none := by
        rw [hstep]
        simp only
        rw [hr]
        exact moveFs_lookup_f hnd hbf _
      exact reloc_fold_lookup_none hgone
    · exact ih _ (relocStep_nodup hnd) hflt x h1

/-- Kind preservation: every name still present maps to an entry of the same
kind (file/directory) as it had in the listing `d1` that step 3 started
from.  Moves delete top-level names and update directory entries in place,
so a name never changes kind while it exists. -/
def kindsOk (d1 fs : List (String × Entry)) : Prop :=
  ∀ n e, lookupE fs n = some e → ∃ e0, lookupE d1 n = some e0 ∧ e.isDir = e0.isDir

theorem kindsOk_refl (d1 : List (String × Entry)) : kindsOk d1 d1 :=
  fun _ e h => ⟨e, h, rfl⟩

theorem relocStep_kindsOk {d1 : List (String × Entry)} {st : MoveState}
    {x : String × String} (hnd : (namesOf st.fs).Nodup) (hk : kindsOk d1 st.fs) :
    kindsOk d1 (relocStep st x).fs := by
  rcases relocStep_split st x with hs | hs | ⟨r, _, hm, hs⟩
  · rw [hs]
    exact hk
  · rw [hs]
    exact hk
  · rw [hs]
    obtain ⟨X, src, ch, hsrc, hbase, hbf, hr⟩ := shutilMove_fs_shape hm
    simp only
    rw [hr]
    intro n e hle
    by_cases hnb : n = x.1
    · subst hnb
      rw [moveFs_lookup_base hbase hbf _] at hle
      obtain ⟨e0, hd1, hkind⟩ := hk x.1 (Entry.dir ch) hbase
      cases hle
      exact ⟨e0, hd1, hkind⟩
    · by_cases hnf : n = x.2
      · subst hnf
        rw [moveFs_lookup_f hnd hbf _] at hle
        cases hle
      · rw [moveFs_lookup_other _ hnb hnf] at hle
        exact hk n e hle

theorem reloc_fold_kindsOk (d1 : List (String × Entry)) :
    ∀ (l : List (String × String)) (st : MoveState),
      (namesOf st.fs).Nodup → kindsOk d1 st.fs →
      kindsOk d1 (l.foldl relocStep st).fs := by
  intro l
  induction l with
  | nil =>
    intro st _ hk
    exact hk
  | cons x rest ih =>
    intro st hnd hk
    rw [List.foldl_cons]
    exact ih _ (relocStep_nodup hnd) (relocStep_kindsOk hnd hk)

theorem relocStep_dir_persist {d1 : List (String × Entry)} {st : MoveState}
    {x : String × String} {B : String} {u : List (String × Entry)}
    (hk : kindsOk d1 st.fs)
    (hfx : lookupE d1 x.2 = some Entry.file)
    (hB : lookupE st.fs B = some (Entry.dir u)) :
    ∃ u', lookupE (relocStep st x).fs B = some (Entry.dir u') := by
  rcases relocStep_split st x with hs | hs | ⟨r, _, hm, hs⟩
  · rw [hs]
    exact ⟨u, hB⟩
  · rw [hs]
    exact ⟨u, hB⟩
  · rw [hs]
    obtain ⟨X, src, ch, hsrc, hbase, hbf, hr⟩ := shutilMove_fs_shape hm
    simp only
    rw [hr]
    have hfB : x.2 ≠ B := by
      intro hc
      rw [hc] at hfx
      obtain ⟨e0, hd1, hkind⟩ := hk B (Entry.dir u) hB
      rw [hfx] at hd1
      cases hd1
      simp [Entry.isDir] at hkind
    by_cases hBb : B = x.1
    · subst hBb
      exact ⟨X, moveFs_lookup_base hbase hbf _⟩
    · rw [moveFs_lookup_other _ hBb (fun hc => hfB hc.symm)]
      exact ⟨u, hB⟩

theorem reloc_fold_dir_persist (d1 : List (String × Entry)) :
    ∀ (l : List (String × String)) (st : MoveState) {B : String}
      {u : List (String × Entry)},
      (namesOf st.fs).Nodup → kindsOk d1 st.fs →
      (∀ x ∈ l, lookupE d1 x.2 = some Entry.file) →
      lookupE st.fs B = some (Entry.dir u) →
      ∃ u', lookupE (l.foldl relocStep st).fs B = some (Entry.dir u') := by
  intro l
  induction l with
  | nil =>
    intro st B u _ _ _ hB
    exact ⟨u, hB⟩
  | cons x rest ih =>
    intro st B u hnd hk hfx hB
    rw [List.foldl_cons]
    obtain ⟨u', hB'⟩ := relocStep_dir_persist hk
      (hfx x (List.mem_cons_self _ _)) hB
    exact ih _ (relocStep_nodup hnd) (relocStep_kindsOk hnd hk)
      (fun y hy => hfx y (List.mem_cons_of_mem _ hy)) hB'

/- ### Path lemmas for destinations of performed moves -/

theorem entryAt_nil (fs : List (String × Entry)) : entryAt fs [] = none := rfl

theorem entryAt_single (fs : List (String × Entry)) (n : String) :
    entryAt fs [n] = lookupE fs n := rfl

theorem entryAt_cons2_eq (fs : List (String × Entry)) (n m : String) (q : List String) :
    entryAt fs (n :: m :: q) =
      match lookupE fs n with
      | some (Entry.dir ch) => entryAt ch (m :: q)
      | _ => none := rfl

theorem entryAt_append {u : List (String × Entry)} (x : List (String × Entry)) :
    ∀ {q : List String} {e : Entry}, entryAt u q = some e → entryAt (u ++ x) q = some e := by
  intro q e h
  match q with
  | [] =>
    rw [entryAt_nil] at h
    cases h
  | [n] =>
    rw [entryAt_single] at h ⊢
    exact lookupE_append_some _ h
  | n :: m :: q' =>
    rw [entryAt_cons2_eq] at h ⊢
    cases hn : lookupE u n with
    | none =>
      simp only [hn] at h
      cases h
    | some e1 =>
      cases e1 with
      | file =>
        simp only [hn] at h
        cases h
      | dir ch =>
        simp only [hn] at h
        simp only [lookupE_append_some x hn]
        exact h

theorem entryAt_setE_dir_extend {u : List (String × Entry)} {k : String}
    {ch2 : List (String × Entry)} (hk : lookupE u k = some (Entry.dir ch2))
    (ext : List (String × Entry)) :
    ∀ {q : List String}, entryAt u q = some Entry.file →
      entryAt (setE u k (Entry.dir (ch2 ++ ext))) q = some Entry.file := by
  intro q h
  match q with
  | [] =>
    rw [entryAt_nil] at h
    cases h
  | [n] =>
    rw [entryAt_single] at h ⊢
    by_cases hnk : n = k
    · rw [hnk, hk] at h
      cases h
    · rw [lookupE_setE_ne _ hnk]
      exact h
  | n :: m :: q' =>
    rw [entryAt_cons2_eq] at h ⊢
    cases hn : lookupE u n with
    | none =>
      simp only [hn] at h
      cases h
    | some e1 =>
      cases e1 with
      | file =>
        simp only [hn] at h
        cases h
      | dir ch =>
        simp only [hn] at h
        by_cases hnk : n = k
        · have h2 : some (Entry.dir ch) = some (Entry.dir ch2) := by
            rw [← hn, hnk, hk]
          obtain rfl : ch = ch2 := by
            cases h2
            rfl
          rw [hnk]
          simp only [lookupE_setE_self (mem_namesOf_of_lookupE hk) _]
          exact entryAt_append ext h
        · simp only [lookupE_setE_ne _ hnk, hn]
          exact h

theorem moveFs_entryAt_file {fs : List (String × Entry)} {f base : String}
    {ch X : List (String × Entry)}
    (hsrc : lookupE fs f = some Entry.file)
    (hbase : lookupE fs base = some (Entry.dir ch))
    (hbf : base ≠ f)
    (hX : ∀ {q : List String}, entryAt ch q = some Entry.file →
      entryAt X q = some Entry.file)
    {p : List String} (hlen : 2 ≤ p.length)
    (hent : entryAt fs p = some Entry.file) :
    entryAt (setE (eraseE fs f) base (Entry.dir X)) p = some Entry.file := by
  cases p with
  | nil => simp at hlen
  | cons n p1 =>
    cases p1 with
    | nil => simp at hlen
    | cons m q =>
      rw [entryAt_cons2_eq] at hent ⊢
      cases hn : lookupE fs n with
      | none =>
        simp only [hn] at hent
        cases hent
      | some e1 =>
        cases e1 with
        | file =>
          simp only [hn] at hent
          cases hent
        | dir u0 =>
          simp only [hn] at hent
          have hnf : n ≠ f := by
            intro hc
            rw [hc, hsrc] at hn
            cases hn
          by_cases hnb : n = base
          · have hu : u0 = ch := by
              rw [hnb, hbase] at hn
              cases hn
              rfl
            rw [hnb]
            simp only [moveFs_lookup_base hbase hbf (Entry.dir X)]
            exact hX (hu ▸ hent)
          · simp only [moveFs_lookup_other (Entry.dir X) hnb hnf, hn]
            exact hent

theorem relocStep_moved_paths (d1 : List (String × Entry)) {st : MoveState}
    {x : String × String}
    (hk : kindsOk d1 st.fs)
    (hfx : lookupE d1 x.2 = some Entry.file)
    (hinv : ∀ s p, (s, p) ∈ st.moved → 2 ≤ p.length ∧ entryAt st.fs p = some Entry.file) :
    ∀ s p, (s, p) ∈ (relocStep st x).moved →
      2 ≤ p.length ∧ entryAt (relocStep st x).fs p = some Entry.file := by
  rcases relocStep_split st x with hs | hs | ⟨r, hstf, hm, hs⟩
  · rw [hs]
    exact hinv
  · rw [hs]
    exact hinv
  · obtain ⟨rfs, rp⟩ := r
    rw [hs]
    simp only
    intro s p hp
    obtain ⟨src, ch, hsrc, hbase, hbf, hbr⟩ := shutilMove_cases hm
    have hsf : src = Entry.file := by
      obtain ⟨e0, hd1, hkind⟩ := hk x.2 src hsrc
      rw [hfx] at hd1
      cases hd1
      cases src with
      | file => rfl
      | dir ch0 => simp [Entry.isDir] at hkind
    subst hsf
    rcases List.mem_append.mp hp with hold | hnew
    · obtain ⟨hlen, hent⟩ := hinv s p hold
      refine ⟨hlen, ?_⟩
      rcases hbr with ⟨ch2, hcf, hc2, hr⟩ | ⟨hcf, _, hr⟩ | ⟨hcf, hr⟩
      · obtain ⟨hrf, _⟩ := Prod.mk.injEq .. ▸ hr
        rw [hrf]
        exact moveFs_entryAt_file hsrc hbase hbf
          (fun hq => entryAt_setE_dir_extend hcf _ hq) hlen hent
      · obtain ⟨hrf, _⟩ := Prod.mk.injEq .. ▸ hr
        rw [hrf, setE_lookup_eq_self hcf]
        exact moveFs_entryAt_file hsrc hbase hbf (fun hq => hq) hlen hent
      · obtain ⟨hrf, _⟩ := Prod.mk.injEq .. ▸ hr
        rw [hrf]
        exact moveFs_entryAt_file hsrc hbase hbf
          (fun hq => entryAt_append _ hq) hlen hent
    · simp only [List.mem_singleton] at hnew
      obtain ⟨hs2, hp2⟩ := Prod.mk.injEq .. ▸ hnew
      subst hp2
      rcases hbr with ⟨ch2, hcf, hc2, hr⟩ | ⟨hcf, _, hr⟩ | ⟨hcf, hr⟩
      · obtain ⟨hrf, hrp⟩ := Prod.mk.injEq .. ▸ hr
        subst hrp
        rw [hrf]
        refine ⟨by simp, ?_⟩
        rw [entryAt_cons2_eq]
        simp only [moveFs_lookup_base hbase hbf
          (Entry.dir (setE ch x.2 (Entry.dir (ch2 ++ [(x.2, Entry.file)]))))]
        rw [entryAt_cons2_eq]
        simp only [lookupE_setE_self (mem_namesOf_of_lookupE hcf)
          (Entry.dir (ch2 ++ [(x.2, Entry.file)]))]
        rw [entryAt_single, lookupE_append_none _ hc2]
        simp [lookupE]
      · obtain ⟨hrf, hrp⟩ := Prod.mk.injEq .. ▸ hr
        subst hrp
        rw [hrf, setE_lookup_eq_self hcf]
        refine ⟨by simp, ?_⟩
        rw [entryAt_cons2_eq]
        simp only [moveFs_lookup_base hbase hbf (Entry.dir ch)]
        rw [entryAt_single]
        exact hcf
      · obtain ⟨hrf, hrp⟩ := Prod.mk.injEq .. ▸ hr
        subst hrp
        rw [hrf]
        refine ⟨by simp, ?_⟩
        rw [entryAt_cons2_eq]
        simp only [moveFs_lookup_base hbase hbf (Entry.dir (ch ++ [(x.2, Entry.file)]))]
        rw [entryAt_single, lookupE_append_none _ hcf]
        simp [lookupE]

theorem reloc_fold_moved_paths (d1 : List (String × Entry)) :
    ∀ (l : List (String × String)) (st : MoveState),
      (namesOf st.fs).Nodup → kindsOk d1 st.fs →
      (∀ x ∈ l, lookupE d1 x.2 = some Entry.file) →
      (∀ s p, (s, p) ∈ st.moved → 2 ≤ p.length ∧ entryAt st.fs p = some Entry.file) →
      ∀ s p, (s, p) ∈ (l.foldl relocStep st).moved →
        2 ≤ p.length ∧ entryAt (l.foldl relocStep st).fs p = some Entry.file := by
  intro l
  induction l with
  | nil =>
    intro st _ _ _ hinv
    exact hinv
  | cons x rest ih =>
    intro st hnd hk hfx hinv
    rw [List.foldl_cons]
    exact ih _ (relocStep_nodup hnd) (relocStep_kindsOk hnd hk)
      (fun y hy => hfx y (List.mem_cons_of_mem _ hy))
      (relocStep_moved_paths d1 hk (hfx x (List.mem_cons_self _ _)) hinv)

/- ### Lemmas about moving into a pre-existing folder -/

theorem reloc_src_file {d1 fs : List (String × Entry)} {f : String} {src : Entry}
    (hk : kindsOk d1 fs) (hfx : lookupE d1 f = some Entry.file)
    (hsrc : lookupE fs f = some src) : src = Entry.file := by
  obtain ⟨e0, hd1, hkind⟩ := hk f src hsrc
  rw [hfx] at hd1
  cases hd1
  cases src with
  | file => rfl
  | dir ch0 => simp [Entry.isDir] at hkind

theorem relocStep_inv6 (d1 : List (String × Entry)) {st : MoveState}
    {x : String × String} {B f : String} {u : List (String × Entry)}
    (hk : kindsOk d1 st.fs)
    (hfx : lookupE d1 x.2 = some Entry.file)
    (hdB : ∃ u0, lookupE d1 B = some (Entry.dir u0))
    (hxne : x.1 = B → x.2 ≠ f)
    (hB : lookupE st.fs B = some (Entry.dir u))
    (hu : lookupE u f = none ∨ lookupE u f = some Entry.file) :
    ∃ u', lookupE (relocStep st x).fs B = some (Entry.dir u') ∧
      (lookupE u' f = none ∨ lookupE u' f = some Entry.file) := by
  have hfB : x.2 ≠ B := by
    intro hc
    obtain ⟨u0, h0⟩ := hdB
    rw [hc, h0] at hfx
    cases hfx
  rcases relocStep_split st x with hs | hs | ⟨r, _, hm, hs⟩
  · rw [hs]
    exact ⟨u, hB, hu⟩
  · rw [hs]
    exact ⟨u, hB, hu⟩
  · obtain ⟨rfs, rp⟩ := r
    rw [hs]
    simp only
    obtain ⟨src, ch, hsrc, hbase, hbf, hbr⟩ := shutilMove_cases hm
    have hsf : src = Entry.file := reloc_src_file hk hfx hsrc
    subst hsf
    by_cases hxB : x.1 = B
    · have hcu : ch = u := by
        rw [hxB, hB] at hbase
        cases hbase
        rfl
      subst hcu
      have hne : x.2 ≠ f := hxne hxB
      rcases hbr with ⟨ch2, hcf, hc2, hr⟩ | ⟨hcf, _, hr⟩ | ⟨hcf, hr⟩
      · obtain ⟨hrf, _⟩ := Prod.mk.injEq .. ▸ hr
        rw [hrf, hxB]
        refine ⟨_, moveFs_lookup_base (hxB ▸ hbase) (hxB ▸ hbf) _, ?_⟩
        rw [lookupE_setE_ne _ (fun hh => hne hh.symm)]
        exact hu
      · obtain ⟨hrf, _⟩ := Prod.mk.injEq .. ▸ hr
        rw [hrf, setE_lookup_eq_self hcf, hxB]
        exact ⟨_, moveFs_lookup_base (hxB ▸ hbase) (hxB ▸ hbf) _, hu⟩
      · obtain ⟨hrf, _⟩ := Prod.mk.injEq .. ▸ hr
        rw [hrf, hxB]
        refine ⟨_, moveFs_lookup_base (hxB ▸ hbase) (hxB ▸ hbf) _, ?_⟩
        rcases hu with hu | hu
        · rw [lookupE_append_none _ hu]
          left
          simp [lookupE, fun hh : x.2 = f => hne hh]
        · right
          exact lookupE_append_some _ hu
    · obtain ⟨X, src', ch', _, _, _, hrf⟩ := shutilMove_fs_shape hm
      have hrf1 : rfs = setE (eraseE st.fs x.2) x.1 (Entry.dir X) := hrf
      rw [hrf1]
      rw [moveFs_lookup_other _ (fun hh => hxB hh.symm) (fun hh => hfB hh.symm)]
      exact ⟨u, hB, hu⟩

theorem reloc_fold_inv6 (d1 : List (String × Entry)) :
    ∀ (l : List (String × String)) (st : MoveState) {B f : String}
      {u : List (String × Entry)},
      (namesOf st.fs).Nodup → kindsOk d1 st.fs →
      (∀ x ∈ l, lookupE d1 x.2 = some Entry.file) →
      (∃ u0, lookupE d1 B = some (Entry.dir u0)) →
      (∀ x ∈ l, x.1 = B → x.2 ≠ f) →
      lookupE st.fs B = some (Entry.dir u) →
      (lookupE u f = none ∨ lookupE u f = some Entry.file) →
      ∃ u', lookupE (l.foldl relocStep st).fs B = some (Entry.dir u') ∧
        (lookupE u' f = none ∨ lookupE u' f = some Entry.file) := by
  intro l
  induction l with
  | nil =>
    intro st B f u _ _ _ _ _ hB hu
    exact ⟨u, hB, hu⟩
  | cons x rest ih =>
    intro st B f u hnd hk hfx hdB hxne hB hu
    rw [List.foldl_cons]
    obtain ⟨u', hB', hu'⟩ := relocStep_inv6 d1 hk (hfx x (List.mem_cons_self _ _))
      hdB (hxne x (List.mem_cons_self _ _)) hB hu
    exact ih _ (relocStep_nodup hnd) (relocStep_kindsOk hnd hk)
      (fun y hy => hfx y (List.mem_cons_of_mem _ hy)) hdB
      (fun y hy => hxne y (List.mem_cons_of_mem _ hy)) hB' hu'

theorem relocStep_dst {B f : String} {st : MoveState} {u : List (String × Entry)}
    (hst : st.fault = false) (hok : (relocStep st (B, f)).fault = false)
    (hB : lookupE st.fs B = some (Entry.dir u))
    (hu : lookupE u f = none ∨ lookupE u f = some Entry.file) :
    (relocStep st (B, f)).moved = st.moved ++ [(f, [B, f])] := by
  obtain ⟨r, hm, hstep⟩ := relocStep_ok hst hok
  obtain ⟨rfs, rp⟩ := r
  rw [hstep]
  simp only
  obtain ⟨src, ch, hsrc, hbase, hbf, hbr⟩ := shutilMove_cases hm
  have hcu : ch = u := by
    have h2 : some (Entry.dir ch) = some (Entry.dir u) := hbase.symm.trans hB
    cases h2
    rfl
  subst hcu
  rcases hbr with ⟨ch2, hcf, hc2, hr⟩ | ⟨hcf, _, hr⟩ | ⟨hcf, hr⟩
  · rcases hu with hu | hu
    · rw [hcf] at hu
      cases hu
    · rw [hcf] at hu
      cases hu
  · obtain ⟨_, hrp⟩ := Prod.mk.injEq .. ▸ hr
    rw [hrp]
  · obtain ⟨_, hrp⟩ := Prod.mk.injEq .. ▸ hr
    rw [hrp]

theorem movePlan_split {fm : List (String × List String)} {B f : String}
    {fl : List String} (hmem : (B, fl) ∈ fm) (hf : f ∈ fl)
    (hkeys : (namesOf fm).Nodup) (hfl : fl.Nodup) :
    ∃ l1 l2, movePlan fm = l1 ++ (B, f) :: l2 ∧
      ∀ x ∈ l1, x.1 = B → x.2 ≠ f := by
  obtain ⟨m1, m2, hfm⟩ := List.append_of_mem hmem
  obtain ⟨f1, f2, hflsplit⟩ := List.append_of_mem hf
  refine ⟨movePlan m1 ++ f1.map (fun g => (B, g)),
    f2.map (fun g => (B, g)) ++ movePlan m2, ?_, ?_⟩
  · rw [hfm, hflsplit]
    unfold movePlan
    simp [List.flatMap_append, List.flatMap_cons, List.map_append, List.append_assoc]
  · intro x hx hxB
    have hBm1 : B ∉ namesOf m1 := by
      rw [hfm] at hkeys
      have hn2 : namesOf (m1 ++ (B, fl) :: m2) = namesOf m1 ++ B :: namesOf m2 := by
        simp [namesOf]
      rw [hn2] at hkeys
      intro hc
      exact (List.disjoint_of_nodup_append hkeys) hc (List.mem_cons_self _ _)
    have hff1 : f ∉ f1 := by
      rw [hflsplit] at hfl
      intro hc
      exact (List.disjoint_of_nodup_append hfl) hc (List.mem_cons_self _ _)
    rcases List.mem_append.mp hx with h1 | h1
    · obtain ⟨fl', hfl', _⟩ := movePlan_mem.mp h1
      rw [hxB] at hfl'
      exact absurd (List.mem_map_of_mem Prod.fst hfl') hBm1
    · obtain ⟨g, hg, hgx⟩ := List.mem_map.mp h1
      intro hc
      rw [← hgx] at hc
      simp at hc
      rw [hc] at hg
      exact hff1 hg

/- ### Putting the three steps together -/

theorem organize_fs (d : List (String × Entry)) :
    (organize d).fs =
      (relocate (ensureFolders d (namesOf (scan d).fm)).1 (scan d).fm).fs := rfl

theorem organize_created (d : List (String × Entry)) :
    (organize d).created = (ensureFolders d (namesOf (scan d).fm)).2 := rfl

theorem organize_moved (d : List (String × Entry)) :
    (organize d).moved =
      (relocate (ensureFolders d (namesOf (scan d).fm)).1 (scan d).fm).moved := rfl

theorem organize_fault (d : List (String × Entry)) :
    (organize d).fault =
      (relocate (ensureFolders d (namesOf (scan d).fm)).1 (scan d).fm).fault := rfl

theorem relocate_eq (d : List (String × Entry)) (fm : List (String × List String)) :
    relocate d fm = (movePlan fm).foldl relocStep { fs := d, moved := [], fault := false } := rfl

/-- Every planned move's source is a file of the post-creation listing: it was
scanned as a file of `d` and folder creation only appends new names. -/
theorem organize_plan_files {d : List (String × Entry)} (hd : (namesOf d).Nodup) :
    ∀ x ∈ movePlan (scan d).fm,
      lookupE (ensureFolders d (namesOf (scan d).fm)).1 x.2 = some Entry.file := by
  intro x hx
  obtain ⟨fl, hfl, hf⟩ := movePlan_mem.mp hx
  obtain ⟨hmem, _, _⟩ := scan_fm_sound hfl x.2 hf
  exact ensureFolders_mono (lookupE_of_mem_nodup hmem hd)

theorem scan_fm_empty_of_no_files :
    ∀ (l : List (String × Entry)) (acc : ScanResult),
      (∀ ne ∈ l, startsWithDot ne.1 = true ∨ ∃ ch, ne.2 = Entry.dir ch) →
      (l.foldl scanStep acc).fm = acc.fm := by
  intro l
  induction l with
  | nil => exact fun acc _ => rfl
  | cons x rest ih =>
    intro acc hcond
    rw [List.foldl_cons]
    rw [ih _ (fun y hy => hcond y (List.mem_cons_of_mem _ hy))]
    obtain ⟨n, e⟩ := x
    cases hdd : startsWithDot n with
    | true => simp only [scanStep, hdd, if_pos]
    | false =>
      rcases hcond (n, e) (List.mem_cons_self _ _) with h1 | ⟨ch, h1⟩
      · rw [hdd] at h1
        cases h1
      · have h2 : e = Entry.dir ch := h1
        subst h2
        simp only [scanStep, hdd, Bool.false_eq_true, if_false]

/- ### Claim theorems -/

/-- C3: on a directory whose listing is exactly a.txt, a.csv, b.log and the
subfolder existing/, organize() produces folder a/ holding a.txt and a.csv,
folder b/ holding b.log, leaves existing/ untouched, moves every top-level
file, creates exactly a and b, and completes without fault. -/
theorem c3_end_to_end :
    organize [("a.txt", Entry.file), ("a.csv", Entry.file), ("b.log", Entry.file),
        ("existing", Entry.dir [])] =
      { fs := [("existing", Entry.dir []),
               ("a", Entry.dir [("a.txt", Entry.file), ("a.csv", Entry.file)]),
               ("b", Entry.dir [("b.log", Entry.file)])],
        created := ["a", "b"],
        moved := [("a.txt", ["a", "a.txt"]), ("a.csv", ["a", "a.csv"]),
                  ("b.log", ["b", "b.log"])],
        fault := false } := rfl

/-- C2 (failing input): for a directory holding the single extensionless file
foo, organize() creates no folder (os.path.exists(directory/foo) is true —
it is the file itself), the move of foo into foo/foo raises, and the run
aborts leaving the directory unchanged — the spec's promised folder named
foo containing the file is never produced. -/
theorem c2_extensionless_file_fault :
    organize [("foo", Entry.file)] =
      { fs := [("foo", Entry.file)], created := [], moved := [], fault := true } := rfl

/-- C1 (counterexample): foo is a basename key of the scan of a directory
holding the single extensionless file foo, yet after the folder-creation
pass the path directory/foo is a file, not a directory. -/
theorem c1_counterexample :
    "foo" ∈ namesOf (scan [("foo", Entry.file)]).fm ∧
    lookupE (ensureFolders [("foo", Entry.file)]
        (namesOf (scan [("foo", Entry.file)]).fm)).1 "foo" = some Entry.file ∧
    ∀ ch, lookupE (ensureFolders [("foo", Entry.file)]
        (namesOf (scan [("foo", Entry.file)]).fm)).1 "foo" ≠ some (Entry.dir ch) := by
  refine ⟨by decide, rfl, ?_⟩
  intro ch h
  exact Entry.noConfusion (Option.some.inj h)

/-- C1 (amended): after the folder-creation pass and before any move, every
basename key B whose path was not already occupied by a file (it was absent,
or already a directory) maps to a directory at directoryPath/B. -/
theorem c1_ensure_folders_dir (d : List (String × Entry)) (B : String)
    (hkey : B ∈ namesOf (scan d).fm)
    (hno : lookupE d B = none ∨ ∃ ch, lookupE d B = some (Entry.dir ch)) :
    ∃ ch, lookupE (ensureFolders d (namesOf (scan d).fm)).1 B = some (Entry.dir ch) :=
  ensure_fold_dir _ d [] hkey hno

theorem c1_witness :
    "a" ∈ namesOf (scan [("a.txt", Entry.file)]).fm ∧
    ∃ ch, lookupE (ensureFolders [("a.txt", Entry.file)]
      (namesOf (scan [("a.txt", Entry.file)]).fm)).1 "a" = some (Entry.dir ch) :=
  ⟨by decide, c1_ensure_folders_dir [("a.txt", Entry.file)] "a" (by decide) (Or.inl rfl)⟩

/-- C7: scan groups every file under the stem `os.path.splitext` computes:
every filename in a basename group has that group's key as its stem;
archive.tar.gz is grouped under archive.tar (only the final extension
segment stripped); and a name with no dot is its own stem. -/
theorem c7_stem_grouping :
    (∀ (d : List (String × Entry)) (b f : String) (fl : List String),
      (b, fl) ∈ (scan d).fm → f ∈ fl → b = stem f) ∧
    stem "archive.tar.gz" = "archive.tar" ∧
    (∀ s : String, ('.' : Char) ∉ s.data → stem s = s) := by
  refine ⟨?_, rfl, ?_⟩
  · intro d b f fl hm hf
    exact (scan_fm_sound hm f hf).2.2
  · intro s h
    exact stem_no_dot h

theorem c7_witness :
    "archive.tar" = stem "archive.tar.gz" ∧ stem "hello" = "hello" :=
  ⟨c7_stem_grouping.1 [("archive.tar.gz", Entry.file)] "archive.tar" "archive.tar.gz"
      ["archive.tar.gz"] (by decide) (by decide),
    c7_stem_grouping.2.2 "hello" (by decide)⟩

/-- C10: a non-hidden, nonempty, otherwise dot-free name with a bare
trailing dot is grouped under the name without the dot — splitext strips
the bare trailing dot — and concretely foo. and foo.txt share the group
foo. -/
theorem c10_trailing_dot :
    (∀ s : String, startsWithDot s = false → s ≠ "" → ('.' : Char) ∉ s.data →
      stem (s ++ ".") = s) ∧
    (scan [("foo.", Entry.file), ("foo.txt", Entry.file)]).fm =
      [("foo", ["foo.", "foo.txt"])] := by
  refine ⟨?_, rfl⟩
  intro s _ hne hdot
  exact stem_append_dot hne hdot

theorem c10_witness : stem ("foo" ++ ".") = "foo" :=
  c10_trailing_dot.1 "foo" rfl (by decide) (by decide)

/-- C9 (counterexample): invoked with the single argument /target, the entry
point still organizes the current working directory (here empty), not the
directory named by the argument — whose organize result differs. -/
theorem c9_counterexample :
    mainEntry (fun p => if p = "/target" then [("a.txt", Entry.file)] else [])
        "/home" ["/target"] = organize [] ∧
    mainEntry (fun p => if p = "/target" then [("a.txt", Entry.file)] else [])
        "/home" ["/target"] ≠ organize [("a.txt", Entry.file)] := by
  refine ⟨rfl, ?_⟩
  intro h
  exact absurd (congrArg RunResult.created h) (by decide)

/-- C9 (amended): the `__main__` block passes no argument to
create_and_move_files, so for every command line the run organizes the
current working directory; the argument vector is ignored. -/
theorem c9_entry_ignores_args (world : String → List (String × Entry))
    (cwd : String) (argv : List String) :
    mainEntry world cwd argv = organize (world cwd) := rfl

theorem namesOf_map_dirs (new : List String) :
    namesOf (new.map (fun b => (b, Entry.dir []))) = new := by
  simp only [namesOf, List.map_map]
  rw [show (Prod.fst ∘ fun b : String => (b, Entry.dir [])) = id from rfl, List.map_id]

/-- C4: a hidden entry (name starting with a dot) is never recorded in the
folder set, never put in a basename group, never has a folder created for
it, is never the source of a move, and its directory entry after organize()
is exactly what it was before. -/
theorem c4_hidden_untouched (d : List (String × Entry)) (h : String)
    (hh : startsWithDot h = true) :
    h ∉ (scan d).folders ∧
    (∀ b fl, (b, fl) ∈ (scan d).fm → h ∉ fl) ∧
    h ∉ (organize d).created ∧
    (∀ s p, (s, p) ∈ (organize d).moved → s ≠ h) ∧
    lookupE (organize d).fs h = lookupE d h := by
  have hgroups : ∀ b fl, (b, fl) ∈ (scan d).fm → h ∉ fl := by
    intro b fl hm hc
    have h2 := (scan_fm_sound hm h hc).2.1
    rw [hh] at h2
    cases h2
  have hkeys : ∀ b, b ∈ namesOf (scan d).fm → b ≠ h := by
    intro b hb hc
    have h2 := scan_keys_not_hidden hb
    rw [hc, hh] at h2
    cases h2
  refine ⟨?_, hgroups, ?_, ?_, ?_⟩
  · intro hc
    have h2 := scan_folders_rec d _ (by simp) h hc
    rw [hh] at h2
    cases h2
  · rw [organize_created]
    intro hc
    obtain ⟨new, heq, _, hmem⟩ := ensureFolders_spec d (namesOf (scan d).fm)
    rw [heq] at hc
    exact hkeys h (hmem h hc).1 rfl
  · intro s p hm hc
    subst hc
    rw [organize_moved, relocate_eq] at hm
    rcases reloc_fold_moved_src _ _ hm with h1 | ⟨b, h1⟩
    · simp at h1
    · obtain ⟨fl, hfl, hf⟩ := movePlan_mem.mp h1
      exact hgroups b fl hfl hf
  · rw [organize_fs, relocate_eq]
    rw [reloc_fold_lookup_preserve]
    · show lookupE (ensureFolders d (namesOf (scan d).fm)).1 h = lookupE d h
      obtain ⟨new, heq, _, hmem⟩ := ensureFolders_spec d (namesOf (scan d).fm)
      rw [heq]
      cases hld : lookupE d h with
      | some e => exact lookupE_append_some _ hld
      | none =>
        show lookupE (d ++ new.map (fun b => (b, Entry.dir []))) h = none
        rw [lookupE_append_none _ hld, lookupE_eq_none, namesOf_map_dirs]
        intro hc
        exact hkeys h (hmem h hc).1 rfl
    · intro x hx
      obtain ⟨fl, hfl, hf⟩ := movePlan_mem.mp hx
      refine ⟨hkeys x.1 (List.mem_map_of_mem Prod.fst hfl), ?_⟩
      intro hc
      exact hgroups _ fl hfl (hc ▸ hf)

theorem c4_witness :
    ".git" ∉ (scan [(".git", Entry.dir []), ("x.txt", Entry.file)]).folders ∧
    lookupE (organize [(".git", Entry.dir []), ("x.txt", Entry.file)]).fs ".git" =
      lookupE [(".git", Entry.dir []), ("x.txt", Entry.file)] ".git" :=
  ⟨(c4_hidden_untouched _ ".git" rfl).1,
    (c4_hidden_untouched _ ".git" rfl).2.2.2.2⟩

/-- C8: no rollback — whether or not the run aborts at a fault, every folder
it reports created is a directory in the final listing, and every file it
reports moved sits (as a file) at its recorded destination path in the
final listing. -/
theorem c8_no_rollback (d : List (String × Entry)) (hd : (namesOf d).Nodup) :
    (∀ b ∈ (organize d).created, ∃ ch, lookupE (organize d).fs b = some (Entry.dir ch)) ∧
    (∀ s p, (s, p) ∈ (organize d).moved → entryAt (organize d).fs p = some Entry.file) := by
  have hd1nd : (namesOf (ensureFolders d (namesOf (scan d).fm)).1).Nodup :=
    ensureFolders_names_nodup hd
  have hp := organize_plan_files hd
  constructor
  · intro b hb
    rw [organize_created] at hb
    have hbd1 := ensureFolders_created_dir hb
    rw [organize_fs, relocate_eq]
    exact reloc_fold_dir_persist _ _ _ hd1nd (kindsOk_refl _) hp hbd1
  · intro s p hm
    rw [organize_moved, relocate_eq] at hm
    rw [organize_fs, relocate_eq]
    refine (reloc_fold_moved_paths _ _ _ hd1nd (kindsOk_refl _) hp ?_ s p hm).2
    intro s' p' hc
    simp at hc

theorem c8_witness :
    (namesOf [("x.txt", Entry.file), ("foo", Entry.file)]).Nodup ∧
    (∃ ch, lookupE (organize [("x.txt", Entry.file), ("foo", Entry.file)]).fs "x" =
      some (Entry.dir ch)) ∧
    entryAt (organize [("x.txt", Entry.file), ("foo", Entry.file)]).fs ["x", "x.txt"] =
      some Entry.file :=
  ⟨by decide,
    (c8_no_rollback _ (by decide)).1 "x" (by decide),
    (c8_no_rollback _ (by decide)).2 "x.txt" ["x", "x.txt"] (by decide)⟩

/-- C5: a second run on the listing produced by a successful run is a no-op:
it creates no folder, performs no move, reports no fault, and leaves the
listing unchanged — the moved files are one level down and the scan is
non-recursive, so only directories (and hidden entries) remain at top
level. -/
theorem c5_idempotent (d : List (String × Entry)) (hd : (namesOf d).Nodup)
    (hok : (organize d).fault = false) :
    organize (organize d).fs =
      { fs := (organize d).fs, created := [], moved := [], fault := false } := by
  have hd1nd : (namesOf (ensureFolders d (namesOf (scan d).fm)).1).Nodup :=
    ensureFolders_names_nodup hd
  have hfault : ((movePlan (scan d).fm).foldl relocStep
      { fs := (ensureFolders d (namesOf (scan d).fm)).1, moved := [],
        fault := false }).fault = false := by
    rw [organize_fault, relocate_eq] at hok
    exact hok
  have hfiles : ∀ n e, (n, e) ∈ (organize d).fs → e = Entry.file →
      startsWithDot n = true := by
    intro n e hm he
    subst he
    cases hsw : startsWithDot n with
    | true => rfl
    | false =>
      exfalso
      rw [organize_fs, relocate_eq] at hm
      have hmem_d1 : (n, Entry.file) ∈ (ensureFolders d (namesOf (scan d).fm)).1 :=
        reloc_fold_file_mono _ _ hm
      have hmem_d : (n, Entry.file) ∈ d := ensureFolders_file_entries hmem_d1
      obtain ⟨fl, hlk, hf⟩ := scan_complete d _ hmem_d hsw
      have hplanmem : (stem n, n) ∈ movePlan (scan d).fm :=
        movePlan_mem.mpr ⟨fl, mem_of_lookupE hlk, hf⟩
      have hnone := reloc_fold_success_removed _ _ hd1nd hfault (stem n, n) hplanmem
      rw [lookupE_eq_none] at hnone
      exact hnone (List.mem_map_of_mem Prod.fst hm)
  have hfm : (scan (organize d).fs).fm = [] := by
    refine scan_fm_empty_of_no_files _ { fm := [], folders := [] } ?_
    intro ne hne
    obtain ⟨n, e⟩ := ne
    cases e with
    | file => exact Or.inl (hfiles n Entry.file hne rfl)
    | dir ch => exact Or.inr ⟨ch, rfl⟩
  have h1 : (organize (organize d).fs).fs = (organize d).fs := by
    rw [organize_fs ((organize d).fs), hfm]
    rfl
  have h2 : (organize (organize d).fs).created = [] := by
    rw [organize_created ((organize d).fs), hfm]
    rfl
  have h3 : (organize (organize d).fs).moved = [] := by
    rw [organize_moved ((organize d).fs), hfm]
    rfl
  have h4 : (organize (organize d).fs).fault = false := by
    rw [organize_fault ((organize d).fs), hfm]
    rfl
  calc organize (organize d).fs
      = { fs := (organize (organize d).fs).fs,
          created := (organize (organize d).fs).created,
          moved := (organize (organize d).fs).moved,
          fault := (organize (organize d).fs).fault } := rfl
    _ = { fs := (organize d).fs, created := [], moved := [], fault := false } := by
        rw [h1, h2, h3, h4]

theorem c5_witness :
    (namesOf [("a.txt", Entry.file), ("a.csv", Entry.file), ("b.log", Entry.file),
      ("existing", Entry.dir [])]).Nodup ∧
    organize (organize [("a.txt", Entry.file), ("a.csv", Entry.file),
        ("b.log", Entry.file), ("existing", Entry.dir [])]).fs =
      { fs := (organize [("a.txt", Entry.file), ("a.csv", Entry.file),
          ("b.log", Entry.file), ("existing", Entry.dir [])]).fs,
        created := [], moved := [], fault := false } :=
  ⟨by decide, c5_idempotent _ (by decide) rfl⟩

theorem relocStep_fault_false_pre {st : MoveState} {x : String × String}
    (h : (relocStep st x).fault = false) : st.fault = false := by
  cases hc : st.fault with
  | false => rfl
  | true =>
    rw [relocStep_fault_state x hc, hc] at h
    cases h

/-- C6 (counterexample): the folder a pre-exists and a.txt forms the
basename group a, yet organize() moves nothing into it: the run aborts on
the extensionless file foo (whose move fails) before group a is processed,
so a stays empty and a.txt stays at top level. -/
theorem c6_counterexample :
    lookupE [("foo", Entry.file), ("a.txt", Entry.file), ("a", Entry.dir [])] "a" =
      some (Entry.dir []) ∧
    ("a", ["a.txt"]) ∈
      (scan [("foo", Entry.file), ("a.txt", Entry.file), ("a", Entry.dir [])]).fm ∧
    organize [("foo", Entry.file), ("a.txt", Entry.file), ("a", Entry.dir [])] =
      { fs := [("foo", Entry.file), ("a.txt", Entry.file), ("a", Entry.dir [])],
        created := [], moved := [], fault := true } :=
  ⟨rfl, by decide, rfl⟩

/-- C6 (amended): when a folder named like a computed basename B already
exists, no creation is attempted for B (and the existence check raises no
error); and provided the run completes without fault, every file f of group
B whose name is not already taken by a subdirectory inside the pre-existing
folder is moved to destination B/f. -/
theorem c6_preexisting_folder_reused (d : List (String × Entry)) (B : String)
    (ch : List (String × Entry)) (fl : List String)
    (hd : (namesOf d).Nodup)
    (hB : lookupE d B = some (Entry.dir ch))
    (hmem : (B, fl) ∈ (scan d).fm)
    (hok : (organize d).fault = false) :
    B ∉ (organize d).created ∧
    ∀ f ∈ fl, (∀ ch2, lookupE ch f ≠ some (Entry.dir ch2)) →
      (f, [B, f]) ∈ (organize d).moved := by
  constructor
  · rw [organize_created]
    exact ensureFolders_not_created hB
  · intro f hf hchf
    have hd1nd : (namesOf (ensureFolders d (namesOf (scan d).fm)).1).Nodup :=
      ensureFolders_names_nodup hd
    have hp := organize_plan_files hd
    have hd1B : lookupE (ensureFolders d (namesOf (scan d).fm)).1 B =
        some (Entry.dir ch) := ensureFolders_mono hB
    obtain ⟨l1, l2, hplan, hl1⟩ :=
      movePlan_split hmem hf (scan_keys_nodup d) (scan_fm_nodup hd B fl hmem)
    rw [organize_fault, relocate_eq, hplan, List.foldl_append, List.foldl_cons] at hok
    have hflt2 := reloc_fold_fault_false hok
    have hst1f := relocStep_fault_false_pre hflt2
    have hu0 : lookupE ch f = none ∨ lookupE ch f = some Entry.file := by
      cases hcc : lookupE ch f with
      | none => exact Or.inl rfl
      | some e =>
        cases e with
        | file => exact Or.inr rfl
        | dir ch2 => exact absurd hcc (hchf ch2)
    obtain ⟨u', hBu', hu'⟩ := reloc_fold_inv6 (ensureFolders d (namesOf (scan d).fm)).1
      l1 { fs := (ensureFolders d (namesOf (scan d).fm)).1, moved := [], fault := false }
      hd1nd (kindsOk_refl _)
      (fun x hx => hp x (by rw [hplan]; exact List.mem_append_left _ hx))
      ⟨ch, hd1B⟩ hl1 hd1B hu0
    have hdst := relocStep_dst hst1f hflt2 hBu' hu'
    rw [organize_moved, relocate_eq, hplan, List.foldl_append, List.foldl_cons]
    refine reloc_fold_moved_mem l2 _ ?_
    rw [hdst]
    exact List.mem_append_right _ (List.mem_singleton.mpr rfl)

theorem c6_witness :
    "a" ∉ (organize [("a.txt", Entry.file), ("a", Entry.dir [])]).created ∧
    ("a.txt", ["a", "a.txt"]) ∈
      (organize [("a.txt", Entry.file), ("a", Entry.dir [])]).moved := by
  have hc6 := c6_preexisting_folder_reused [("a.txt", Entry.file), ("a", Entry.dir [])]
    "a" [] ["a.txt"] (by decide) rfl (by decide) rfl
  exact ⟨hc6.1, hc6.2 "a.txt" (by decide) (fun ch2 h => Option.noConfusion h)⟩
